import Mathlib

/-!
# The rolling-hash evaluator `eval/eval.go`

A shallow embedding of the evaluator of the hashsplit specification repository and
the properties of its bias, correlation and avalanche counters.

Conventions of the embedding.

* A Go `byte` is a `Nat` below 256 and a `uint32` is a `Nat` below `2^32`; where the
  source could leave the range the reduction is written out (`% 256`, `% 4294967296`).
* A Go `int` counter is a `Nat`: the counters start at zero, are only incremented, and
  are bounded by the length of a buffer, far below `2^63`.
* A fixed-size Go array is a `List` of that length, read with `getD · 0` and written
  with `List.set`; every index the source uses is in range.
* A `for i := a; i < n; i++` loop is a left fold over `List.range` (or `List.range'`).
* The pseudo-random buffer (`rng.Read`) is an input of the model, the wall clock and
  the text of the report are left out.
-/

namespace Eval

/-! ## The `roller` interface -/

/-- The Go interface `roller` (eval.go lines 37-40): an object with hidden state and the
two methods `Roll(byte)` and `Digest() uint32`.  Both methods have pointer receivers in
every implementation, so `Digest` is allowed to change the state as well: it returns the
digest together with the state it leaves behind. -/
structure roller : Type 1 where
  /-- the type of the hidden state -/
  State : Type
  /-- the current state -/
  state : State
  /-- the method `Roll`, as a function on states -/
  rollFn : State → Nat → State
  /-- the method `Digest`, as a function on states -/
  digestFn : State → Nat × State

/-- The call `r.Roll(b)`. -/
def roller.Roll (r : roller) (b : Nat) : roller :=
  { r with state := r.rollFn r.state b }

/-- The call `r.Digest()`: the `uint32` returned and the roller afterwards. -/
def roller.Digest (r : roller) : Nat × roller :=
  ((r.digestFn r.state).1 % 4294967296, { r with state := (r.digestFn r.state).2 })

/-! ## Bit tests and counters -/

/-- The Go expression `digest&(1<<i) == 0` on `uint32` operands. -/
def bitIsZero (digest i : Nat) : Bool :=
  digest &&& ((1 <<< i) % 4294967296) == 0

/-- The statement `xs[i]++` on an array of counters. -/
def incr (xs : List Nat) (i : Nat) : List Nat :=
  xs.set i (xs.getD i 0 + 1)

/-- The flat index `32*i+j` of the cell of the pair `(i, j)` in `correlations`. -/
def cell (i j : Nat) : Nat := 32 * i + j

/-- The loop of lines 97-101: for `j` from `i+1` to `31`, count the pair `(i, j)` when bit
`i` and bit `j` of the digest are both zero or both one. -/
def pairLoop (digest i : Nat) (correlations : List Nat) : List Nat :=
  (List.range' (i + 1) (32 - (i + 1))).foldl
    (fun c j => if bitIsZero digest i = bitIsZero digest j then incr c (cell i j) else c)
    correlations

/-- The loop of lines 93-102 for one digest: update `zeroes` and `correlations`. -/
def bitLoop (digest : Nat) (zc : List Nat × List Nat) : List Nat × List Nat :=
  (List.range 32).foldl
    (fun zc i =>
      ((if bitIsZero digest i then incr zc.1 i else zc.1), pairLoop digest i zc.2))
    zc

/-! ## The variables of `eval` -/

/-- The variables of `eval` that the measurement phases read and write, with two ghost
counters that record how often `factory()` was called and how many perturbation trials
were compared. -/
structure Vars where
  /-- the package-level variable `digest` (line 67) -/
  digest : Nat
  /-- the local variable `r` -/
  r : roller
  /-- the array `zeroes [32]int` -/
  zeroes : List Nat
  /-- the array `correlations [32 * 32]int` -/
  correlations : List Nat
  /-- the array `differed [32]int` -/
  differed : List Nat
  /-- ghost: number of calls of `factory()` so far -/
  constructed : Nat
  /-- ghost: number of perturbation trials whose digest was compared so far -/
  trials : Nat

/-- Lines 75-80: the zeroed counters and the first roller.  `digest0` is the value the
package-level variable `digest` holds when `eval` is entered. -/
def initVars (factory : Unit → roller) (digest0 : Nat) : Vars :=
  { digest := digest0
    r := factory ()
    zeroes := List.replicate 32 0
    correlations := List.replicate (32 * 32) 0
    differed := List.replicate 32 0
    constructed := 1
    trials := 0 }

/-- Lines 82-85: the timing loop, `r.Roll(megabyte[i]); digest = r.Digest()`. -/
def timingLoop (megabyte : List Nat) (v : Vars) : Vars :=
  megabyte.foldl
    (fun v b =>
      let d := (v.r.Roll b).Digest
      { v with r := d.2, digest := d.1 })
    v

/-- One iteration of the loop of lines 89-103. -/
def biasBody (v : Vars) (b : Nat) : Vars :=
  let d := (v.r.Roll b).Digest
  let zc := bitLoop d.1 (v.zeroes, v.correlations)
  { v with r := d.2, digest := d.1, zeroes := zc.1, correlations := zc.2 }

/-- Lines 88-103: the bias and correlation pass over a fresh roller. -/
def biasPhase (factory : Unit → roller) (megabyte : List Nat) (v : Vars) : Vars :=
  megabyte.foldl biasBody { v with r := factory (), constructed := v.constructed + 1 }

/-- The byte rolled at position `i` of trial `(j, k)` (lines 141-144):
`inp[i]`, with `1 << k` XORed in when `i == j`. -/
def trialByte (inp : List Nat) (j k i : Nat) : Nat :=
  let byt := inp.getD i 0
  if i = j then byt ^^^ ((1 <<< k) % 256) else byt

/-- The loop of lines 148-152: compare the digest `d2` of a trial with the reference
value in `digest`, bit by bit. -/
def diffLoop (digest d2 : Nat) (differed : List Nat) : List Nat :=
  (List.range 32).foldl
    (fun c i => if bitIsZero digest i ≠ bitIsZero d2 i then incr c i else c)
    differed

/-- Lines 139-146 of trial `(j, k)`: a fresh roller into which the perturbed input has been
rolled. -/
def trialRoller (factory : Unit → roller) (inp : List Nat) (j k : Nat) : roller :=
  (List.range inp.length).foldl (fun r i => r.Roll (trialByte inp j k i)) (factory ())

/-- The digest `d2` of trial `(j, k)` (line 147). -/
def trialDigest (factory : Unit → roller) (inp : List Nat) (j k : Nat) : Nat :=
  (trialRoller factory inp j k).Digest.1

/-- The body of the loop over `k` (lines 139-152): one perturbation trial. -/
def trialBody (factory : Unit → roller) (inp : List Nat) (j : Nat) (v : Vars) (k : Nat) :
    Vars :=
  { v with
    r := (trialRoller factory inp j k).Digest.2
    differed := diffLoop v.digest (trialDigest factory inp j k) v.differed
    constructed := v.constructed + 1
    trials := v.trials + 1 }

/-- Lines 127-130: a fresh roller into which the reference input has been rolled. -/
def referenceRoller (factory : Unit → roller) (inp : List Nat) : roller :=
  (List.range inp.length).foldl (fun r i => r.Roll (inp.getD i 0)) (factory ())

/-- Lines 122-154: the avalanche phase on the reference input `inp`. -/
def avalanchePhase (factory : Unit → roller) (inp : List Nat) (v : Vars) : Vars :=
  let d := (referenceRoller factory inp).Digest
  let v1 : Vars :=
    { v with
      r := d.2
      digest := d.1
      differed := List.replicate 32 0
      constructed := v.constructed + 1
      trials := 0 }
  (List.range inp.length).foldl
    (fun v j => (List.range 8).foldl (trialBody factory inp j) v)
    v1

/-- The variables of `eval` after the first `n` iterations of the loop of lines 89-103. -/
def afterSamples (factory : Unit → roller) (megabyte : List Nat) (digest0 n : Nat) : Vars :=
  biasPhase factory (megabyte.take n) (timingLoop megabyte (initVars factory digest0))

/-! ## The tolerance band -/

/-- Rounding of a rational to the nearest integer, ties to the even one. -/
def roundHalfEven (x : ℚ) : ℤ :=
  let f := ⌊x⌋
  if x - f < 1 / 2 then f
  else if 1 / 2 < x - f then f + 1
  else if f % 2 = 0 then f else f + 1

/-- The conversion to `float32` of a non-negative real number, given as a rational: the
nearest number with a 24-bit significand, ties to even (IEEE 754 binary32, for values in
the normal range `2^-126 ≤ x < 2^128`, the only ones that occur here). -/
def float32 (x : ℚ) : ℚ :=
  if x = 0 then 0
  else
    let e := Int.log 2 x
    (roundHalfEven (x * (2 : ℚ) ^ (23 - e)) : ℚ) * (2 : ℚ) ^ (e - 23)

/-- The test of lines 107-108, 115-116 and 158-159 on a counter `z` and a sample count
`n`: `frac := float32(z) / float32(n)` and `frac < .49 || frac > .51`, the constants being
converted to `float32` as Go does for an untyped constant compared with a `float32`.
For `n = 0` the quotient is NaN when `z = 0` (every comparison is false) and `+Inf`
otherwise. -/
def flagged (z n : Nat) : Bool :=
  if n = 0 then decide (0 < z)
  else
    let frac := float32 (float32 z / float32 n)
    decide (frac < float32 (49 / 100)) || decide (frac > float32 (51 / 100))

/-- The pairs `(i, j)` whose cell `correlations[32*i+j]` the loops of lines 113-114 read,
in the order in which they are read. -/
def pairReads : List (Nat × Nat) :=
  (List.range 31).foldl
    (fun acc i => (List.range' (i + 1) (32 - (i + 1))).foldl (fun acc j => acc ++ [(i, j)]) acc)
    []

/-! ## The function `eval` -/

/-- What `eval` leaves behind: its variables and the entries it prints. -/
structure Report where
  /-- the variables when `eval` returns -/
  vars : Vars
  /-- the bits `i` printed by line 109 -/
  biasedBits : List Nat
  /-- the pairs `(i, j)` printed by line 117 -/
  correlatedPairs : List (Nat × Nat)
  /-- the bits `i` printed by line 160 -/
  avalancheBits : List Nat

/-- The function `eval` (lines 69-163) on the buffer `megabyte` that `rng.Read` filled
(an array of 1,048,576 bytes in the source). -/
def eval (factory : Unit → roller) (megabyte : List Nat) (digest0 : Nat) : Report :=
  let v := initVars factory digest0
  let v := timingLoop megabyte v
  let v := biasPhase factory megabyte v
  let biasedBits := (List.range 32).filter
    (fun i => flagged (v.zeroes.getD i 0) megabyte.length)
  let correlatedPairs := pairReads.filter
    (fun p => flagged (v.correlations.getD (cell p.1 p.2) 0) megabyte.length)
  let inp := megabyte.take 256
  let v := avalanchePhase factory inp v
  let avalancheBits := (List.range 32).filter
    (fun i => flagged (v.differed.getD i 0) (8 * inp.length))
  { vars := v
    biasedBits := biasedBits
    correlatedPairs := correlatedPairs
    avalancheBits := avalancheBits }

/-! ## The `crc32` roller, the registry and `main` -/

/-- The struct `crc32wrapper` (lines 277-280). -/
structure crc32wrapper where
  /-- the circular buffer -/
  buf : List Nat
  /-- position in `buf` of the next write -/
  next : Nat

/-- The Go builtin `copy(dst, src)`: the first `min(len(dst), len(src))` elements of `dst`
are replaced by those of `src`. -/
def copy (dst src : List Nat) : List Nat :=
  src.take dst.length ++ dst.drop src.length

/-- The method `Roll` of `crc32wrapper` (lines 288-292); `none` is the run-time panic of an
index out of range (which also covers a modulus by zero). -/
def crc32wrapper.Roll (w : crc32wrapper) (b : Nat) : Option crc32wrapper :=
  if w.next < w.buf.length then
    some { buf := w.buf.set w.next b, next := (w.next + 1) % w.buf.length }
  else none

/-- The method `Digest` of `crc32wrapper` (lines 294-299), over the checksum function
`ChecksumIEEE` of the Go library; `none` is the run-time panic of a slice bound out of
range. -/
def crc32wrapper.Digest (ChecksumIEEE : List Nat → Nat) (w : crc32wrapper) : Option Nat :=
  if w.next ≤ w.buf.length then
    let buf := List.replicate w.buf.length 0
    let buf := copy buf (w.buf.drop w.next)
    let off := w.buf.length - w.next
    let buf := buf.take off ++ copy (buf.drop off) w.buf
    some (ChecksumIEEE buf)
  else none

/-- The roller that wraps a `crc32wrapper`; the state is `none` once a method has
panicked, and stays so. -/
def crc32At (ChecksumIEEE : List Nat → Nat) (s : Option crc32wrapper) : roller :=
  { State := Option crc32wrapper
    state := s
    rollFn := fun s b => s.bind (fun w => w.Roll b)
    digestFn := fun s =>
      match s.bind (fun w => w.Digest ChecksumIEEE) with
      | some d => (d, s)
      | none => (0, none) }

/-- The factory `newCRC32(windowSize)` (lines 282-286). -/
def newCRC32 (ChecksumIEEE : List Nat → Nat) (windowSize : Nat) : Unit → roller := fun _ =>
  crc32At ChecksumIEEE (some { buf := List.replicate windowSize 0, next := 0 })

/-- The parts of the registry that live in other packages: the rollers of `go4.org/rollsum`
and `github.com/chmduquesne/rollinghash` behind their wrappers, and `crc32.ChecksumIEEE`. -/
structure Library where
  /-- `func() roller { return rollsum.New() }` -/
  rollsum : Unit → roller
  /-- `newAdler32` -/
  newAdler32 : Nat → Unit → roller
  /-- `newBozo32` -/
  newBozo32 : Nat → Unit → roller
  /-- `newBuzhash32` -/
  newBuzhash32 : Nat → Unit → roller
  /-- `newBuzhash64` -/
  newBuzhash64 : Nat → Unit → roller
  /-- `crc32.ChecksumIEEE` -/
  ChecksumIEEE : List Nat → Nat

/-- The map `hashes` (lines 165-173), as an association list. -/
def hashes (lib : Library) : List (String × (Unit → roller)) :=
  [("rollsum", lib.rollsum),
   ("adler32", lib.newAdler32 64),
   ("bozo32", lib.newBozo32 64),
   ("buzhash32", lib.newBuzhash32 64),
   ("buzhash64", lib.newBuzhash64 64),
   ("crc32", newCRC32 lib.ChecksumIEEE 64)]

/-- What a run of `main` does, as far as an observer can tell. -/
inductive Event : Type 1 where
  /-- line 49 printed the seed -/
  | printedSeed (seed : Int)
  /-- line 53 or 58 printed the name of an algorithm -/
  | printedName (name : String)
  /-- a call of `eval` ran its three phases and returned -/
  | evaluated (rep : Report)
  /-- the program died at line 80 calling a nil `factory`, before any phase -/
  | nilFactoryPanic
  /-- an error value that names an unknown algorithm (the source has no such path) -/
  | unknownAlgorithm (name : String)

/-- A call `eval(factory, seed)` where `factory` is the result of a map lookup: the zero
value of a missing key is the nil function, and `eval` panics when it calls it at line 80;
nothing but the filling of the buffer happens before. -/
def evalCall (factory : Option (Unit → roller)) (megabyte : List Nat) (digest0 : Nat) :
    Option Report :=
  match factory with
  | none => none
  | some f => some (eval f megabyte digest0)

/-- The loop of lines 57-60 over the positional arguments; `digest` is the package-level
variable, which survives from one call of `eval` to the next. -/
def evalNames (lib : Library) (megabyte : List Nat) : List String → Nat → List Event
  | [], _ => []
  | name :: rest, digest =>
    match evalCall ((hashes lib).lookup name) megabyte digest with
    | none => [Event.printedName name, Event.nilFactoryPanic]
    | some rep =>
      Event.printedName name :: Event.evaluated rep
        :: evalNames lib megabyte rest rep.vars.digest

/-- The loop of lines 52-55 over the registry (in the order of the listing; Go leaves the
order of a map iteration open). -/
def evalAll (megabyte : List Nat) : List (String × (Unit → roller)) → Nat → List Event
  | [], _ => []
  | (name, factory) :: rest, digest =>
    Event.printedName name :: Event.evaluated (eval factory megabyte digest)
      :: evalAll megabyte rest (eval factory megabyte digest).vars.digest

/-- The function `main` (lines 42-62): `all` and `seed` are the parsed flags, `args` the
positional arguments and `rng seed` the buffer that the random source yields for `seed`. -/
def main (lib : Library) (rng : Int → List Nat) (all : Bool) (seed : Int)
    (args : List String) : List Event :=
  Event.printedSeed seed ::
    (if all then evalAll (rng seed) (hashes lib) 0 else evalNames lib (rng seed) args 0)

/-! ## Notions used to state the properties -/

/-- The digests returned, in order, when the bytes of `b` are rolled one by one into the
roller `r`, each `Roll` being followed by one `Digest`. -/
def digests (r : roller) : List Nat → List Nat
  | [] => []
  | x :: xs => (r.Roll x).Digest.1 :: digests (r.Roll x).Digest.2 xs

/-- The digest returned right after rolling `b[0..t]` into one freshly constructed roller
that is asked for its digest after every byte. -/
def digestAt (factory : Unit → roller) (b : List Nat) (t : Nat) : Nat :=
  (digests (factory ()) b).getD t 0

/-- The digest of a freshly constructed roller after rolling all of `inp` into it. -/
def digestOf (factory : Unit → roller) (inp : List Nat) : Nat :=
  ((inp.foldl (fun r x => r.Roll x) (factory ())).Digest).1

/-- The input that equals `inp` except that byte `j` is XORed with `2^k`. -/
def perturbed (inp : List Nat) (j k : Nat) : List Nat :=
  inp.set j (inp.getD j 0 ^^^ 2 ^ k)

/-- A call of one of the two methods of a roller. -/
inductive Call where
  /-- the call `Roll(b)` -/
  | Roll (b : Nat)
  /-- the call `Digest()` -/
  | Digest

/-- The roller after one method call. -/
def roller.call (r : roller) : Call → roller
  | Call.Roll b => r.Roll b
  | Call.Digest => r.Digest.2

/-- The roller after a sequence of method calls. -/
def roller.calls (r : roller) (cs : List Call) : roller :=
  cs.foldl roller.call r

/-- The bytes rolled by a sequence of method calls, in order. -/
def rolledBytes : List Call → List Nat
  | [] => []
  | Call.Roll b :: cs => b :: rolledBytes cs
  | Call.Digest :: cs => rolledBytes cs

/-- The last `W` bytes of `W` zero bytes followed by `s`. -/
def window (W : Nat) (s : List Nat) : List Nat :=
  (List.replicate W 0 ++ s).drop ((List.replicate W 0 ++ s).length - W)

/-- The content of the circular buffer in chronological order, oldest byte first:
`buf[next:]` followed by `buf[:next]`. -/
def crc32wrapper.chrono (w : crc32wrapper) : List Nat :=
  w.buf.drop w.next ++ w.buf.take w.next

/-- A `crc32wrapper` of window `W` is well shaped and its buffer holds, in chronological
order, the last `W` bytes of the history `h` (the initial zero bytes and the bytes rolled). -/
def Tracks (W : Nat) (w : crc32wrapper) (h : List Nat) : Prop :=
  w.buf.length = W ∧ w.next < W ∧ W ≤ h.length ∧ w.chrono = h.drop (h.length - W)

/-- The number of one bits of a natural number. -/
def popcount (x : Nat) : Nat :=
  ((List.range x.size).filter (fun i => x.testBit i)).length

/-- The counting stub after `s` bytes: its digest is the number of bytes rolled so far. -/
def counterAt (s : Nat) : roller :=
  { State := Nat
    state := s
    rollFn := fun s _ => s + 1
    digestFn := fun s => (s, s) }

/-- A stub roller whose digest is the number of bytes rolled so far. -/
def counterStub : Unit → roller := fun _ => counterAt 0

/-- The last-byte stub whose most recently rolled byte is `s`. -/
def lastByteAt (s : Nat) : roller :=
  { State := Nat
    state := s
    rollFn := fun _ b => b
    digestFn := fun s => (s, s) }

/-- A stub roller whose digest is the most recently rolled byte, zero-extended. -/
def lastByteStub : Unit → roller := fun _ => lastByteAt 0

/-- A library of stand-ins for the packages outside the repository, used in examples: every
external roller is the last-byte stub and the checksum is the sum of the bytes. -/
def stubLibrary : Library :=
  { rollsum := lastByteStub
    newAdler32 := fun _ => lastByteStub
    newBozo32 := fun _ => lastByteStub
    newBuzhash32 := fun _ => lastByteStub
    newBuzhash64 := fun _ => lastByteStub
    ChecksumIEEE := List.sum }

/-! ## Lemmas on bit tests and counters -/

theorem and_two_pow_eq_zero_iff (d i : Nat) : d &&& 2 ^ i = 0 ↔ d.testBit i = false := by
  constructor
  · intro h
    have h1 : (d &&& 2 ^ i).testBit i = false := by rw [h]; simp
    rw [Nat.testBit_and, Nat.testBit_two_pow_self] at h1
    simpa using h1
  · intro h
    apply Nat.eq_of_testBit_eq
    intro k
    rw [Nat.testBit_and, Nat.testBit_two_pow, Nat.zero_testBit]
    by_cases hk : i = k
    · subst hk; simp [h]
    · simp [hk]

theorem bitIsZero_eq (d i : Nat) (hi : i < 32) : bitIsZero d i = !d.testBit i := by
  have h2 : (2 : Nat) ^ i < 4294967296 := by
    have : (2 : Nat) ^ i < 2 ^ 32 := Nat.pow_lt_pow_right (by decide) hi
    simpa using this
  unfold bitIsZero
  rw [Nat.one_shiftLeft, Nat.mod_eq_of_lt h2]
  cases hb : d.testBit i
  · simpa using (and_two_pow_eq_zero_iff d i).2 hb
  · have : ¬ (d &&& 2 ^ i = 0) := by
      rw [and_two_pow_eq_zero_iff]; simp [hb]
    simpa using this

theorem length_incr (xs : List Nat) (i : Nat) : (incr xs i).length = xs.length := by
  simp [incr]

theorem getD_incr (xs : List Nat) (i c : Nat) (hc : c < xs.length) :
    (incr xs i).getD c 0 = xs.getD c 0 + if i = c then 1 else 0 := by
  unfold incr
  simp only [List.getD_eq_getElem?_getD, List.getElem?_set]
  by_cases h : i = c
  · subst h; simp [hc]
  · simp [h]

theorem getD_replicate_zero (n c : Nat) : (List.replicate n 0).getD c 0 = 0 := by
  rw [List.getD_eq_getElem?_getD, List.getElem?_replicate]
  split <;> rfl

/-- A loop that conditionally increments the counter `key j` for each `j` of a list adds, to
every cell, the number of `j` that satisfy the condition and are keyed to that cell. -/
theorem foldl_incr {α : Type} (p : α → Prop) [DecidablePred p] (key : α → Nat)
    (js : List α) :
    ∀ (xs : List Nat),
      (js.foldl (fun acc j => if p j then incr acc (key j) else acc) xs).length = xs.length ∧
      ∀ c, c < xs.length →
        (js.foldl (fun acc j => if p j then incr acc (key j) else acc) xs).getD c 0
          = xs.getD c 0 + js.countP (fun j => decide (p j) && decide (key j = c)) := by
  induction js with
  | nil => intro xs; simp
  | cons j js ih =>
    intro xs
    simp only [List.foldl_cons]
    by_cases hp : p j
    · have h := ih (incr xs (key j))
      rw [length_incr] at h
      refine ⟨by simpa [hp] using h.1, fun c hc => ?_⟩
      have h2 := h.2 c hc
      simp only [hp, if_true] at h2 ⊢
      rw [h2, getD_incr xs _ c hc, List.countP_cons]
      by_cases hk : key j = c
      · simp [hk, hp]; omega
      · simp [hk]
    · have h := ih xs
      refine ⟨by simpa [hp] using h.1, fun c hc => ?_⟩
      have h2 := h.2 c hc
      simp only [hp] at h2 ⊢
      rw [List.countP_cons]
      simpa [hp] using h2

/-- Counting the elements of a duplicate-free list that satisfy `p` and equal `i`. -/
theorem countP_and_eq (p : Nat → Bool) (i : Nat) (l : List Nat) (hl : l.Nodup) :
    l.countP (fun j => p j && decide (j = i)) = if i ∈ l ∧ p i = true then 1 else 0 := by
  induction l with
  | nil => simp
  | cons a l ih =>
    have hnd := List.nodup_cons.1 hl
    rw [List.countP_cons, ih hnd.2]
    by_cases ha : a = i
    · subst ha
      by_cases hp : p a = true <;> simp [hp, hnd.1]
    · have hia : ¬ i = a := fun h => ha h.symm
      simp [ha, hia]

/-- A loop over pairs of counters whose body treats the two components separately. -/
theorem foldl_pair {α β γ : Type} (f : α → γ → α) (g : β → γ → β) (l : List γ) :
    ∀ (ab : α × β),
      l.foldl (fun ab i => (f ab.1 i, g ab.2 i)) ab = (l.foldl f ab.1, l.foldl g ab.2) := by
  induction l with
  | nil => intro ab; rfl
  | cons x l ih => intro ab; simp only [List.foldl_cons]; rw [ih]

theorem bitLoop_fst (d : Nat) (zc : List Nat × List Nat) :
    (bitLoop d zc).1
      = (List.range 32).foldl (fun z i => if bitIsZero d i = true then incr z i else z) zc.1 := by
  unfold bitLoop
  rw [foldl_pair (fun z i => if bitIsZero d i = true then incr z i else z)
    (fun c i => pairLoop d i c)]

theorem bitLoop_snd (d : Nat) (zc : List Nat × List Nat) :
    (bitLoop d zc).2 = (List.range 32).foldl (fun c i => pairLoop d i c) zc.2 := by
  unfold bitLoop
  rw [foldl_pair (fun z i => if bitIsZero d i = true then incr z i else z)
    (fun c i => pairLoop d i c)]

/-- Effect of the bit loop on `zeroes`: cell `i` gains one exactly when bit `i` is zero. -/
theorem bitLoop_zeroes (d : Nat) (zc : List Nat × List Nat) :
    (bitLoop d zc).1.length = zc.1.length ∧
    ∀ i, i < 32 → i < zc.1.length →
      (bitLoop d zc).1.getD i 0 = zc.1.getD i 0 + if bitIsZero d i = true then 1 else 0 := by
  rw [bitLoop_fst]
  have h := foldl_incr (fun i => bitIsZero d i = true) (fun i => i) (List.range 32) zc.1
  refine ⟨h.1, fun i hi hlen => ?_⟩
  rw [h.2 i hlen]
  have hc := countP_and_eq (fun j => bitIsZero d j) i (List.range 32) (List.nodup_range 32)
  simp only [Bool.decide_eq_true] at hc ⊢
  rw [hc]
  simp [hi]

theorem cell_inj {i j i0 j0 : Nat} (hj : j < 32) (hj0 : j0 < 32) :
    cell i j = cell i0 j0 ↔ i = i0 ∧ j = j0 := by
  unfold cell; omega

/-- Effect of the pair loop of row `i` on the cell of the pair `(i0, j0)`. -/
theorem pairLoop_cell (d i : Nat) (cs : List Nat) (i0 j0 : Nat) (hj0 : j0 < 32)
    (hlen : cell i0 j0 < cs.length) :
    (pairLoop d i cs).length = cs.length ∧
    (pairLoop d i cs).getD (cell i0 j0) 0
      = cs.getD (cell i0 j0) 0
        + if i = i0 ∧ i0 < j0 ∧ bitIsZero d i0 = bitIsZero d j0 then 1 else 0 := by
  unfold pairLoop
  have h := foldl_incr (fun j => bitIsZero d i = bitIsZero d j) (fun j => cell i j)
    (List.range' (i + 1) (32 - (i + 1))) cs
  refine ⟨h.1, ?_⟩
  rw [h.2 _ hlen]
  congr 1
  by_cases hi : i = i0
  · subst hi
    have hcongr : (List.range' (i + 1) (32 - (i + 1))).countP
          (fun j => decide (bitIsZero d i = bitIsZero d j) && decide (cell i j = cell i j0))
        = (List.range' (i + 1) (32 - (i + 1))).countP
          (fun j => decide (bitIsZero d i = bitIsZero d j) && decide (j = j0)) := by
      apply List.countP_congr
      intro j hj
      have hj32 : j < 32 := by
        rw [List.mem_range'_1] at hj; omega
      simp [cell_inj hj32 hj0]
    rw [hcongr, countP_and_eq (fun j => decide (bitIsZero d i = bitIsZero d j)) j0 _
      (List.nodup_range' _ _)]
    have hmem : j0 ∈ List.range' (i + 1) (32 - (i + 1)) ↔ i < j0 := by
      rw [List.mem_range'_1]; omega
    simp only [hmem, decide_eq_true_eq, true_and]
  · have hzero : (List.range' (i + 1) (32 - (i + 1))).countP
          (fun j => decide (bitIsZero d i = bitIsZero d j) && decide (cell i j = cell i0 j0))
        = 0 := by
      rw [List.countP_eq_zero]
      intro j hj
      have hj32 : j < 32 := by
        rw [List.mem_range'_1] at hj; omega
      simp [cell_inj hj32 hj0, hi]
    rw [hzero]
    simp [hi]

/-- Effect of the rows `is` of the bit loop on the cell of the pair `(i0, j0)`. -/
theorem rows_cell (d : Nat) (i0 j0 : Nat) (hj0 : j0 < 32) (is : List Nat) (hnd : is.Nodup) :
    ∀ (cs : List Nat), cell i0 j0 < cs.length →
      (is.foldl (fun c i => pairLoop d i c) cs).length = cs.length ∧
      (is.foldl (fun c i => pairLoop d i c) cs).getD (cell i0 j0) 0
        = cs.getD (cell i0 j0) 0
          + if i0 ∈ is ∧ i0 < j0 ∧ bitIsZero d i0 = bitIsZero d j0 then 1 else 0 := by
  induction is with
  | nil => intro cs _; simp
  | cons i is ih =>
    intro cs hlen
    have hnd2 := List.nodup_cons.1 hnd
    have h1 := pairLoop_cell d i cs i0 j0 hj0 hlen
    have h2 := ih hnd2.2 (pairLoop d i cs) (by rw [h1.1]; exact hlen)
    simp only [List.foldl_cons]
    refine ⟨by rw [h2.1, h1.1], ?_⟩
    rw [h2.2, h1.2]
    by_cases hi : i = i0
    · subst hi
      simp [hnd2.1]
    · have hi2 : ¬ i0 = i := fun h => hi h.symm
      simp [hi, hi2]

/-- Effect of the bit loop on `correlations`: the cell of a pair `(i0, j0)` gains one
exactly when `i0 < j0` and the two bits are equal. -/
theorem bitLoop_correlations (d : Nat) (zc : List Nat × List Nat) :
    (bitLoop d zc).2.length = zc.2.length ∧
    ∀ i0 j0, i0 < 32 → j0 < 32 → cell i0 j0 < zc.2.length →
      (bitLoop d zc).2.getD (cell i0 j0) 0
        = zc.2.getD (cell i0 j0) 0
          + if i0 < j0 ∧ bitIsZero d i0 = bitIsZero d j0 then 1 else 0 := by
  rw [bitLoop_snd]
  constructor
  · have key : ∀ (is : List Nat) (cs : List Nat),
        (is.foldl (fun c i => pairLoop d i c) cs).length = cs.length := by
      intro is
      induction is with
      | nil => intro cs; rfl
      | cons i is ih =>
        intro cs
        simp only [List.foldl_cons]
        rw [ih]
        unfold pairLoop
        exact (foldl_incr (fun j => bitIsZero d i = bitIsZero d j) (fun j => cell i j) _ cs).1
    exact key _ _
  · intro i0 j0 hi0 hj0 hlen
    rw [(rows_cell d i0 j0 hj0 (List.range 32) (List.nodup_range 32) zc.2 hlen).2]
    simp [hi0]

/-! ## The bias and correlation pass -/

/-- What the loop of lines 89-103 does to the variables, in terms of the digests it sees. -/
theorem biasLoop_spec (b : List Nat) :
    ∀ (v : Vars),
      (b.foldl biasBody v).zeroes.length = v.zeroes.length ∧
      (b.foldl biasBody v).correlations.length = v.correlations.length ∧
      (b.foldl biasBody v).differed = v.differed ∧
      (b.foldl biasBody v).constructed = v.constructed ∧
      (b.foldl biasBody v).trials = v.trials ∧
      (∀ i, i < 32 → i < v.zeroes.length →
        (b.foldl biasBody v).zeroes.getD i 0
          = v.zeroes.getD i 0 + (digests v.r b).countP (fun d => bitIsZero d i)) ∧
      (∀ i j, i < 32 → j < 32 → cell i j < v.correlations.length →
        (b.foldl biasBody v).correlations.getD (cell i j) 0
          = v.correlations.getD (cell i j) 0
            + (digests v.r b).countP
                (fun d => decide (i < j ∧ bitIsZero d i = bitIsZero d j))) := by
  induction b with
  | nil => intro v; simp [digests]
  | cons x xs ih =>
    intro v
    have h := ih (biasBody v x)
    have hz := bitLoop_zeroes (v.r.Roll x).Digest.1 (v.zeroes, v.correlations)
    have hc := bitLoop_correlations (v.r.Roll x).Digest.1 (v.zeroes, v.correlations)
    simp only [List.foldl_cons]
    obtain ⟨h1, h2, h3, h4, h5, h6, h7⟩ := h
    have e1 : (biasBody v x).zeroes = (bitLoop (v.r.Roll x).Digest.1 (v.zeroes, v.correlations)).1 := rfl
    have e2 : (biasBody v x).correlations
        = (bitLoop (v.r.Roll x).Digest.1 (v.zeroes, v.correlations)).2 := rfl
    have e3 : (biasBody v x).r = (v.r.Roll x).Digest.2 := rfl
    refine ⟨by rw [h1, e1, hz.1], by rw [h2, e2, hc.1], by rw [h3]; rfl, by rw [h4]; rfl,
      by rw [h5]; rfl, ?_, ?_⟩
    · intro i hi hlen
      rw [h6 i hi (by rw [e1, hz.1]; exact hlen), e1, hz.2 i hi hlen, e3]
      simp only [digests, List.countP_cons]
      omega
    · intro i j hi hj hlen
      rw [h7 i j hi hj (by rw [e2, hc.1]; exact hlen), e2, hc.2 i j hi hj hlen, e3]
      simp only [digests, List.countP_cons, decide_eq_true_eq]
      omega

/-- Counting the positions of a list whose entry satisfies `p` counts those entries. -/
theorem countP_positions (p : Nat → Bool) (l : List Nat) :
    ((List.range l.length).filter (fun t => p (l.getD t 0))).length = l.countP p := by
  rw [← List.countP_eq_length_filter]
  induction l with
  | nil => simp
  | cons a l ih =>
    rw [List.length_cons, List.range_succ_eq_map, List.countP_cons, List.countP_map,
      List.countP_cons, ← ih]
    simp [Function.comp_def]

/-- The trial loops leave `zeroes` and `correlations` alone. -/
theorem trials_frame (factory : Unit → roller) (inp : List Nat) (js : List Nat) :
    ∀ (v : Vars),
      (js.foldl (fun v j => (List.range 8).foldl (trialBody factory inp j) v) v).zeroes
        = v.zeroes ∧
      (js.foldl (fun v j => (List.range 8).foldl (trialBody factory inp j) v) v).correlations
        = v.correlations ∧
      (js.foldl (fun v j => (List.range 8).foldl (trialBody factory inp j) v) v).digest
        = v.digest := by
  have inner : ∀ (j : Nat) (ks : List Nat) (v : Vars),
      (ks.foldl (trialBody factory inp j) v).zeroes = v.zeroes ∧
      (ks.foldl (trialBody factory inp j) v).correlations = v.correlations ∧
      (ks.foldl (trialBody factory inp j) v).digest = v.digest := by
    intro j ks
    induction ks with
    | nil => intro v; exact ⟨rfl, rfl, rfl⟩
    | cons k ks ih =>
      intro v
      simp only [List.foldl_cons]
      obtain ⟨a, b, c⟩ := ih (trialBody factory inp j v k)
      exact ⟨by rw [a]; rfl, by rw [b]; rfl, by rw [c]; rfl⟩
  induction js with
  | nil => intro v; exact ⟨rfl, rfl, rfl⟩
  | cons j js ih =>
    intro v
    simp only [List.foldl_cons]
    obtain ⟨a, b, c⟩ := ih ((List.range 8).foldl (trialBody factory inp j) v)
    obtain ⟨a2, b2, c2⟩ := inner j (List.range 8) v
    exact ⟨by rw [a, a2], by rw [b, b2], by rw [c, c2]⟩

/-- The avalanche phase leaves `zeroes` and `correlations` alone. -/
theorem avalanche_frame (factory : Unit → roller) (inp : List Nat) (v : Vars) :
    (avalanchePhase factory inp v).zeroes = v.zeroes ∧
    (avalanchePhase factory inp v).correlations = v.correlations := by
  unfold avalanchePhase
  obtain ⟨a, b, _⟩ := trials_frame factory inp (List.range inp.length)
    { v with
      r := (referenceRoller factory inp).Digest.2
      digest := (referenceRoller factory inp).Digest.1
      differed := List.replicate 32 0
      constructed := v.constructed + 1
      trials := 0 }
  exact ⟨a, b⟩

/-- The timing loop touches only `r` and `digest`. -/
theorem timingLoop_frame (megabyte : List Nat) :
    ∀ (v : Vars),
      (timingLoop megabyte v).zeroes = v.zeroes ∧
      (timingLoop megabyte v).correlations = v.correlations ∧
      (timingLoop megabyte v).differed = v.differed ∧
      (timingLoop megabyte v).constructed = v.constructed ∧
      (timingLoop megabyte v).trials = v.trials := by
  unfold timingLoop
  induction megabyte with
  | nil => intro v; exact ⟨rfl, rfl, rfl, rfl, rfl⟩
  | cons x xs ih =>
    intro v
    simp only [List.foldl_cons]
    obtain ⟨a, b, c, d, e⟩ := ih { v with r := (v.r.Roll x).Digest.2, digest := (v.r.Roll x).Digest.1 }
    exact ⟨by rw [a], by rw [b], by rw [c], by rw [d], by rw [e]⟩

/-- The counters of a bias pass over `b` that starts where the timing loop of `eval` ended,
in terms of the digests the pass sees. -/
theorem biasPhase_timed (factory : Unit → roller) (b megabyte : List Nat) (digest0 : Nat) :
    (biasPhase factory b (timingLoop megabyte (initVars factory digest0))).zeroes.length = 32 ∧
    (biasPhase factory b (timingLoop megabyte (initVars factory digest0))).correlations.length
      = 32 * 32 ∧
    (∀ i, i < 32 →
      (biasPhase factory b (timingLoop megabyte (initVars factory digest0))).zeroes.getD i 0
        = (digests (factory ()) b).countP (fun d => bitIsZero d i)) ∧
    (∀ i j, i < 32 → j < 32 →
      (biasPhase factory b
          (timingLoop megabyte (initVars factory digest0))).correlations.getD (cell i j) 0
        = (digests (factory ()) b).countP
            (fun d => decide (i < j ∧ bitIsZero d i = bitIsZero d j))) := by
  have hf := timingLoop_frame megabyte (initVars factory digest0)
  have hz0 : (timingLoop megabyte (initVars factory digest0)).zeroes = List.replicate 32 0 :=
    hf.1
  have hc0 : (timingLoop megabyte (initVars factory digest0)).correlations
      = List.replicate (32 * 32) 0 := hf.2.1
  have hb := biasLoop_spec b
    { timingLoop megabyte (initVars factory digest0) with
      r := factory ()
      constructed := (timingLoop megabyte (initVars factory digest0)).constructed + 1 }
  obtain ⟨h1, h2, -, -, -, h6, h7⟩ := hb
  simp only [hz0, hc0, List.length_replicate] at h1 h2 h6 h7
  unfold biasPhase
  simp only [hz0, hc0]
  refine ⟨h1, h2, ?_, ?_⟩
  · intro i hi
    rw [h6 i hi hi, getD_replicate_zero, Nat.zero_add]
  · intro i j hi hj
    have hcell : cell i j < 32 * 32 := by unfold cell; omega
    rw [h7 i j hi hj hcell, getD_replicate_zero, Nat.zero_add]

/-- The variables with which `eval` returns. -/
theorem eval_vars (factory : Unit → roller) (megabyte : List Nat) (digest0 : Nat) :
    (eval factory megabyte digest0).vars
      = avalanchePhase factory (megabyte.take 256)
          (biasPhase factory megabyte (timingLoop megabyte (initVars factory digest0))) :=
  rfl

/-- The pairs that `eval` prints are selected among the pairs that the reporting loops
read. -/
theorem eval_correlatedPairs (factory : Unit → roller) (megabyte : List Nat) (digest0 : Nat) :
    (eval factory megabyte digest0).correlatedPairs
      = pairReads.filter (fun p =>
          flagged
            ((biasPhase factory megabyte
              (timingLoop megabyte (initVars factory digest0))).correlations.getD
                (cell p.1 p.2) 0)
            megabyte.length) := by
  unfold eval
  simp only []

/-- The counters `zeroes` and `correlations` that `eval` ends with are those of the bias
pass started on zeroed counters. -/
theorem eval_bias (factory : Unit → roller) (megabyte : List Nat) (digest0 : Nat) :
    (∀ i, i < 32 →
      (eval factory megabyte digest0).vars.zeroes.getD i 0
        = (digests (factory ()) megabyte).countP (fun d => bitIsZero d i)) ∧
    (∀ i j, i < 32 → j < 32 →
      (eval factory megabyte digest0).vars.correlations.getD (cell i j) 0
        = (digests (factory ()) megabyte).countP
            (fun d => decide (i < j ∧ bitIsZero d i = bitIsZero d j))) := by
  obtain ⟨-, -, h3, h4⟩ := biasPhase_timed factory megabyte megabyte digest0
  rw [eval_vars, (avalanche_frame _ _ _).1, (avalanche_frame _ _ _).2]
  exact ⟨h3, h4⟩

/-- Every cell of `zeroes` and of `correlations` counts the digests of the pass that
satisfy some fixed condition. -/
theorem bias_cells (factory : Unit → roller) (megabyte : List Nat) (digest0 c : Nat) :
    (∃ P : Nat → Bool, ∀ b,
      (biasPhase factory b (timingLoop megabyte (initVars factory digest0))).zeroes.getD c 0
        = (digests (factory ()) b).countP P) ∧
    (∃ Q : Nat → Bool, ∀ b,
      (biasPhase factory b
          (timingLoop megabyte (initVars factory digest0))).correlations.getD c 0
        = (digests (factory ()) b).countP Q) := by
  constructor
  · by_cases hc : c < 32
    · exact ⟨fun d => bitIsZero d c, fun b => (biasPhase_timed factory b megabyte digest0).2.2.1 c hc⟩
    · refine ⟨fun _ => false, fun b => ?_⟩
      have hlen := (biasPhase_timed factory b megabyte digest0).1
      rw [List.getD_eq_default _ _ (by rw [hlen]; omega)]
      simp
  · by_cases hc : c < 32 * 32
    · have hcell : cell (c / 32) (c % 32) = c := by unfold cell; omega
      refine ⟨fun d => decide (c / 32 < c % 32 ∧ bitIsZero d (c / 32) = bitIsZero d (c % 32)),
        fun b => ?_⟩
      have h := (biasPhase_timed factory b megabyte digest0).2.2.2 (c / 32) (c % 32)
        (by omega) (by omega)
      rw [hcell] at h
      exact h
    · refine ⟨fun _ => false, fun b => ?_⟩
      have hlen := (biasPhase_timed factory b megabyte digest0).2.1
      rw [List.getD_eq_default _ _ (by rw [hlen]; omega)]
      simp

theorem length_digests (l : List Nat) : ∀ (r : roller), (digests r l).length = l.length := by
  induction l with
  | nil => intro r; rfl
  | cons x xs ih => intro r; simp [digests, ih]

/-- One more byte adds at most one digest at the end of the sequence of digests. -/
theorem digests_take_succ (b : List Nat) :
    ∀ (r : roller) (n : Nat), ∃ l : List Nat,
      l.length ≤ 1 ∧ digests r (b.take (n + 1)) = digests r (b.take n) ++ l := by
  induction b with
  | nil => intro r n; exact ⟨[], by simp, by simp [digests]⟩
  | cons x xs ih =>
    intro r n
    cases n with
    | zero => exact ⟨[(r.Roll x).Digest.1], by simp, by simp [digests]⟩
    | succ n =>
      obtain ⟨l, hl, he⟩ := ih (r.Roll x).Digest.2 n
      refine ⟨l, hl, ?_⟩
      simp only [List.take_succ_cons, digests, he, List.cons_append]

/-- A count over the digests of the first `n` bytes is at most `n`, and one more byte
raises it by zero or one. -/
theorem countP_digests_step (P : Nat → Bool) (r : roller) (b : List Nat) (n : Nat) :
    (digests r (b.take n)).countP P ≤ n ∧
    (digests r (b.take n)).countP P ≤ (digests r (b.take (n + 1))).countP P ∧
    (digests r (b.take (n + 1))).countP P ≤ (digests r (b.take n)).countP P + 1 := by
  obtain ⟨l, hl, he⟩ := digests_take_succ b r n
  have h1 : (digests r (b.take n)).countP P ≤ (digests r (b.take n)).length :=
    List.countP_le_length P
  rw [length_digests, List.length_take] at h1
  have h2 : l.countP P ≤ l.length := List.countP_le_length P
  rw [he, List.countP_append]
  omega

/-- The digests of the counting stub, started with `s` bytes already rolled. -/
theorem digests_counter (b : List Nat) :
    ∀ (s t : Nat), t < b.length →
      (digests (counterAt s) b).getD t 0 = (s + t + 1) % 4294967296 := by
  induction b with
  | nil => intro s t ht; simp at ht
  | cons x xs ih =>
    intro s t ht
    cases t with
    | zero => simp [digests, roller.Roll, roller.Digest, counterAt]
    | succ t =>
      have ht2 : t < xs.length := by simpa using ht
      have h := ih (s + 1) t ht2
      have hr : ((counterAt s).Roll x).Digest.2 = counterAt (s + 1) := rfl
      simp only [digests]
      rw [List.getD_cons_succ, hr, h]
      congr 1
      omega

theorem testBit_u32 (x i : Nat) (hi : i < 32) : (x % 4294967296).testBit i = x.testBit i := by
  have h := Nat.testBit_mod_two_pow x 32 i
  simp only [hi, decide_True, Bool.true_and] at h
  simpa using h

/-! ## The avalanche phase -/

theorem map_getD_range (l : List Nat) : (List.range l.length).map (fun i => l.getD i 0) = l := by
  apply List.ext_getElem
  · simp
  · intro i h1 h2
    simp [List.getD_eq_getElem?_getD, List.getElem?_eq_getElem h2]

/-- The bytes that trial `(j, k)` rolls are the reference input with byte `j` XORed with
`2^k`. -/
theorem map_trialByte (inp : List Nat) (j k : Nat) (hk : k < 8) :
    (List.range inp.length).map (trialByte inp j k) = perturbed inp j k := by
  have h2 : (1 <<< k) % 256 = 2 ^ k := by
    rw [Nat.one_shiftLeft]
    apply Nat.mod_eq_of_lt
    have : (2 : Nat) ^ k < 2 ^ 8 := Nat.pow_lt_pow_right (by decide) hk
    simpa using this
  apply List.ext_getElem
  · simp [perturbed]
  · intro i h1 h2'
    have hi : i < inp.length := by simpa using h1
    simp only [List.getElem_map, List.getElem_range, trialByte, perturbed, h2,
      List.getElem_set]
    by_cases hij : i = j
    · subst hij; simp
    · have hji : ¬ j = i := fun h => hij h.symm
      simp [hij, hji, List.getD_eq_getElem?_getD, List.getElem?_eq_getElem hi]

theorem trialDigest_eq (factory : Unit → roller) (inp : List Nat) (j k : Nat) (hk : k < 8) :
    trialDigest factory inp j k = digestOf factory (perturbed inp j k) := by
  unfold trialDigest trialRoller digestOf
  rw [← map_trialByte inp j k hk, List.foldl_map]

theorem referenceDigest_eq (factory : Unit → roller) (inp : List Nat) :
    (referenceRoller factory inp).Digest.1 = digestOf factory inp := by
  unfold referenceRoller digestOf
  conv_rhs => rw [← map_getD_range inp, List.foldl_map]

/-- Effect of the comparison loop of lines 148-152 on `differed`. -/
theorem diffLoop_spec (digest d2 : Nat) (c : List Nat) :
    (diffLoop digest d2 c).length = c.length ∧
    ∀ i, i < 32 → i < c.length →
      (diffLoop digest d2 c).getD i 0
        = c.getD i 0 + if bitIsZero digest i ≠ bitIsZero d2 i then 1 else 0 := by
  unfold diffLoop
  have h := foldl_incr (fun i => bitIsZero digest i ≠ bitIsZero d2 i) (fun i => i)
    (List.range 32) c
  refine ⟨h.1, fun i hi hlen => ?_⟩
  rw [h.2 i hlen,
    countP_and_eq (fun i => decide (bitIsZero digest i ≠ bitIsZero d2 i)) i (List.range 32)
      (List.nodup_range 32)]
  simp [hi]

/-- Two nested loops are one loop over the list of pairs. -/
theorem foldl_product {σ : Type 1} (g : Nat → σ → Nat → σ) (ks : List Nat) (js : List Nat) :
    ∀ (v : σ),
      js.foldl (fun v j => ks.foldl (g j) v) v
        = (List.product js ks).foldl (fun v p => g p.1 v p.2) v := by
  induction js with
  | nil => intro v; rfl
  | cons j js ih =>
    intro v
    have hp : List.product (j :: js) ks = ks.map (fun k => (j, k)) ++ List.product js ks := by
      simp [List.product, List.flatMap_cons]
    rw [hp, List.foldl_append, List.foldl_map, List.foldl_cons, ih]

theorem length_product_range (n m : Nat) :
    (List.product (List.range n) (List.range m)).length = n * m := by
  have h := List.length_product (List.range n) (List.range m)
  simpa using h

theorem mem_product_range {n m : Nat} {p : Nat × Nat}
    (hp : p ∈ List.product (List.range n) (List.range m)) : p.1 < n ∧ p.2 < m := by
  have h := List.pair_mem_product.1 (show (p.1, p.2) ∈ _ from hp)
  exact ⟨List.mem_range.1 h.1, List.mem_range.1 h.2⟩

/-- What a sequence of perturbation trials does to the variables. -/
theorem trials_spec (factory : Unit → roller) (inp : List Nat) (ps : List (Nat × Nat)) :
    ∀ (v : Vars),
      (ps.foldl (fun v p => trialBody factory inp p.1 v p.2) v).digest = v.digest ∧
      (ps.foldl (fun v p => trialBody factory inp p.1 v p.2) v).differed.length
        = v.differed.length ∧
      (ps.foldl (fun v p => trialBody factory inp p.1 v p.2) v).trials
        = v.trials + ps.length ∧
      (ps.foldl (fun v p => trialBody factory inp p.1 v p.2) v).constructed
        = v.constructed + ps.length ∧
      ∀ i, i < 32 → i < v.differed.length →
        (ps.foldl (fun v p => trialBody factory inp p.1 v p.2) v).differed.getD i 0
          = v.differed.getD i 0
            + ps.countP (fun p =>
                decide (bitIsZero v.digest i ≠ bitIsZero (trialDigest factory inp p.1 p.2) i)) := by
  induction ps with
  | nil => intro v; simp
  | cons p ps ih =>
    intro v
    obtain ⟨h1, h2, h3, h4, h5⟩ := ih (trialBody factory inp p.1 v p.2)
    have hd := diffLoop_spec v.digest (trialDigest factory inp p.1 p.2) v.differed
    have e1 : (trialBody factory inp p.1 v p.2).digest = v.digest := rfl
    have e2 : (trialBody factory inp p.1 v p.2).differed
        = diffLoop v.digest (trialDigest factory inp p.1 p.2) v.differed := rfl
    have e3 : (trialBody factory inp p.1 v p.2).trials = v.trials + 1 := rfl
    have e4 : (trialBody factory inp p.1 v p.2).constructed = v.constructed + 1 := rfl
    simp only [List.foldl_cons, List.length_cons]
    refine ⟨by rw [h1, e1], by rw [h2, e2, hd.1], by rw [h3, e3]; omega, by rw [h4, e4]; omega,
      ?_⟩
    intro i hi hlen
    rw [h5 i hi (by rw [e2, hd.1]; exact hlen), e2, hd.2 i hi hlen, e1, List.countP_cons]
    by_cases hb : bitIsZero v.digest i = bitIsZero (trialDigest factory inp p.1 p.2) i
    · simp [hb]
    · simp [hb]; omega

/-- What the avalanche phase leaves in its variables. -/
theorem avalanche_spec (factory : Unit → roller) (inp : List Nat) (v : Vars) :
    (avalanchePhase factory inp v).digest = digestOf factory inp ∧
    (avalanchePhase factory inp v).differed.length = 32 ∧
    (avalanchePhase factory inp v).trials = inp.length * 8 ∧
    (avalanchePhase factory inp v).constructed = v.constructed + 1 + inp.length * 8 ∧
    ∀ i, i < 32 →
      (avalanchePhase factory inp v).differed.getD i 0
        = (List.product (List.range inp.length) (List.range 8)).countP (fun p =>
            (digestOf factory inp).testBit i
              != (digestOf factory (perturbed inp p.1 p.2)).testBit i) := by
  unfold avalanchePhase
  simp only []
  rw [foldl_product (trialBody factory inp)]
  obtain ⟨h1, h2, h3, h4, h5⟩ := trials_spec factory inp
    (List.product (List.range inp.length) (List.range 8))
    { v with
      r := (referenceRoller factory inp).Digest.2
      digest := (referenceRoller factory inp).Digest.1
      differed := List.replicate 32 0
      constructed := v.constructed + 1
      trials := 0 }
  simp only [length_product_range, List.length_replicate] at h2 h3 h4 h5
  refine ⟨by rw [h1]; exact referenceDigest_eq factory inp, h2, by rw [h3]; omega, h4, ?_⟩
  intro i hi
  rw [h5 i hi hi, getD_replicate_zero, Nat.zero_add, referenceDigest_eq]
  apply List.countP_congr
  intro p hp
  have hk : p.2 < 8 := (mem_product_range hp).2
  rw [trialDigest_eq factory inp p.1 p.2 hk, bitIsZero_eq _ i hi, bitIsZero_eq _ i hi]
  cases (digestOf factory inp).testBit i <;>
    cases (digestOf factory (perturbed inp p.1 p.2)).testBit i <;> simp

/-! ## The properties of the bias and correlation counters -/

/-- C1: after the bias pass `zeroes[i]`, for `i` in `[0,32)`, is the number of positions
`t` in `[0,N)` for which bit `i` of the digest returned right after rolling `b[0..t]` into
one freshly constructed roller is zero; and for the stub roller whose digest is the number
of bytes rolled so far it is the number of `t` in `1..N` whose bit `i` is zero. -/
theorem bias_counters_exact (factory : Unit → roller) (megabyte : List Nat)
    (digest0 i : Nat) (hi : i < 32) :
    (eval factory megabyte digest0).vars.zeroes.getD i 0
      = ((List.range megabyte.length).filter
          (fun t => !(digestAt factory megabyte t).testBit i)).length ∧
    (eval counterStub megabyte digest0).vars.zeroes.getD i 0
      = ((List.range' 1 megabyte.length).filter (fun t => !t.testBit i)).length := by
  have general : ∀ (f : Unit → roller),
      (eval f megabyte digest0).vars.zeroes.getD i 0
        = ((List.range megabyte.length).filter
            (fun t => !(digestAt f megabyte t).testBit i)).length := by
    intro f
    rw [(eval_bias f megabyte digest0).1 i hi]
    have h := countP_positions (fun d => !d.testBit i) (digests (f ()) megabyte)
    have hlen : ∀ (l : List Nat) (r : roller), (digests r l).length = l.length := by
      intro l
      induction l with
      | nil => intro r; rfl
      | cons x xs ih => intro r; simp [digests, ih]
    rw [hlen] at h
    unfold digestAt
    rw [h]
    apply List.countP_congr
    intro d _
    rw [bitIsZero_eq d i hi]
  refine ⟨general factory, ?_⟩
  rw [general counterStub, List.range'_eq_map_range, List.filter_map, List.length_map]
  congr 1
  apply List.filter_congr
  intro t ht
  have ht2 : t < megabyte.length := List.mem_range.1 ht
  have h := digests_counter megabyte 0 t ht2
  simp only [Function.comp, digestAt, counterStub]
  rw [h, testBit_u32 _ i hi]
  congr 2
  omega

/-- Witness of C1: three bytes, bit 0. -/
theorem bias_counters_exact_witness :
    (eval lastByteStub [7, 8, 9] 0).vars.zeroes.getD 0 0
      = ((List.range [7, 8, 9].length).filter
          (fun t => !(digestAt lastByteStub [7, 8, 9] t).testBit 0)).length ∧
    (eval counterStub [7, 8, 9] 0).vars.zeroes.getD 0 0
      = ((List.range' 1 [7, 8, 9].length).filter (fun t => !t.testBit 0)).length :=
  bias_counters_exact lastByteStub [7, 8, 9] 0 0 (by decide)

/-- C2: after the bias pass `correlations[32*i+j]`, for `0 ≤ i < j < 32`, is the number of
the per-byte digests in which bit `i` and bit `j` have equal values; the cell lies inside
the flat table and no other pair `(i', j')` with `j' < 32` is stored in it. -/
theorem correlation_counters_exact (factory : Unit → roller) (megabyte : List Nat)
    (digest0 i j : Nat) (hij : i < j) (hj : j < 32) :
    (eval factory megabyte digest0).vars.correlations.getD (32 * i + j) 0
      = ((List.range megabyte.length).filter
          (fun t => (digestAt factory megabyte t).testBit i
            == (digestAt factory megabyte t).testBit j)).length ∧
    32 * i + j < 32 * 32 ∧
    ∀ i2 j2, j2 < 32 → 32 * i2 + j2 = 32 * i + j → i2 = i ∧ j2 = j := by
  have hi : i < 32 := by omega
  refine ⟨?_, by omega, fun i2 j2 h2 he => by omega⟩
  have h0 := (eval_bias factory megabyte digest0).2 i j hi hj
  unfold cell at h0
  rw [h0]
  have h := countP_positions
    (fun d => d.testBit i == d.testBit j) (digests (factory ()) megabyte)
  have hlen : ∀ (l : List Nat) (r : roller), (digests r l).length = l.length := by
    intro l
    induction l with
    | nil => intro r; rfl
    | cons x xs ih => intro r; simp [digests, ih]
  rw [hlen] at h
  unfold digestAt
  rw [h]
  apply List.countP_congr
  intro d _
  rw [bitIsZero_eq d i hi, bitIsZero_eq d j hj]
  cases d.testBit i <;> cases d.testBit j <;> simp [hij]

/-- Witness of C2: three bytes, the pair of bits `(0, 1)`. -/
theorem correlation_counters_exact_witness :
    (eval lastByteStub [7, 8, 9] 0).vars.correlations.getD (32 * 0 + 1) 0
      = ((List.range [7, 8, 9].length).filter
          (fun t => (digestAt lastByteStub [7, 8, 9] t).testBit 0
            == (digestAt lastByteStub [7, 8, 9] t).testBit 1)).length ∧
    32 * 0 + 1 < 32 * 32 ∧
    ∀ i2 j2, j2 < 32 → 32 * i2 + j2 = 32 * 0 + 1 → i2 = 0 ∧ j2 = 1 :=
  correlation_counters_exact lastByteStub [7, 8, 9] 0 0 1 (by decide) (by decide)

/-! ## The properties of the avalanche counters -/

/-- C3: after the avalanche phase on a reference input `inp`, `differed[i]`, for `i` in
`[0,32)`, is the number of pairs `(j, k)`, `j` a byte position and `k` in `[0,8)`, for which
bit `i` of the digest of `inp` differs from bit `i` of the digest of the input that equals
`inp` except that byte `j` is XORed with `2^k`, each digest taken from a fresh roller; in
`eval` the reference input is the first 256 bytes of the buffer. -/
theorem avalanche_counters_exact (factory : Unit → roller) (inp megabyte : List Nat)
    (v : Vars) (digest0 i : Nat) (hi : i < 32) :
    (avalanchePhase factory inp v).differed.getD i 0
      = ((List.product (List.range inp.length) (List.range 8)).filter (fun p =>
          (digestOf factory inp).testBit i
            != (digestOf factory (perturbed inp p.1 p.2)).testBit i)).length ∧
    (eval factory megabyte digest0).vars.differed.getD i 0
      = ((List.product (List.range (megabyte.take 256).length) (List.range 8)).filter (fun p =>
          (digestOf factory (megabyte.take 256)).testBit i
            != (digestOf factory (perturbed (megabyte.take 256) p.1 p.2)).testBit i)).length := by
  rw [eval_vars, ← List.countP_eq_length_filter, ← List.countP_eq_length_filter]
  exact ⟨(avalanche_spec factory inp v).2.2.2.2 i hi, (avalanche_spec factory _ _).2.2.2.2 i hi⟩

/-- Witness of C3: a two-byte reference input, output bit 3. -/
theorem avalanche_counters_exact_witness :
    (avalanchePhase lastByteStub [5, 6] (initVars lastByteStub 0)).differed.getD 3 0
      = ((List.product (List.range [5, 6].length) (List.range 8)).filter (fun p =>
          (digestOf lastByteStub [5, 6]).testBit 3
            != (digestOf lastByteStub (perturbed [5, 6] p.1 p.2)).testBit 3)).length ∧
    (eval lastByteStub [5, 6, 7] 0).vars.differed.getD 3 0
      = ((List.product (List.range ([5, 6, 7].take 256).length) (List.range 8)).filter
          (fun p =>
            (digestOf lastByteStub ([5, 6, 7].take 256)).testBit 3
              != (digestOf lastByteStub
                    (perturbed ([5, 6, 7].take 256) p.1 p.2)).testBit 3)).length :=
  avalanche_counters_exact lastByteStub [5, 6] [5, 6, 7] (initVars lastByteStub 0) 0 3
    (by decide)

/-- C6: on a reference input of length `L` the avalanche phase compares exactly `L*8`
perturbation trials and calls the factory `L*8 + 1` times (one roller per trial and one for
the reference digest), and `differed[i] ≤ L*8` for every output bit `i`; in `eval`, where
the reference input is the first 256 bytes, `differed[i] ≤ 2048`. -/
theorem avalanche_trial_count (factory : Unit → roller) (inp megabyte : List Nat)
    (v : Vars) (digest0 i : Nat) (hi : i < 32) :
    (avalanchePhase factory inp v).trials = inp.length * 8 ∧
    (avalanchePhase factory inp v).constructed = v.constructed + 1 + inp.length * 8 ∧
    0 ≤ (avalanchePhase factory inp v).differed.getD i 0 ∧
    (avalanchePhase factory inp v).differed.getD i 0 ≤ inp.length * 8 ∧
    (eval factory megabyte digest0).vars.trials = (megabyte.take 256).length * 8 ∧
    (eval factory megabyte digest0).vars.differed.getD i 0 ≤ 2048 := by
  have bound : ∀ (l : List Nat) (w : Vars),
      (avalanchePhase factory l w).differed.getD i 0 ≤ l.length * 8 := by
    intro l w
    rw [(avalanche_spec factory l w).2.2.2.2 i hi]
    have h := List.countP_le_length (fun p : Nat × Nat =>
          (digestOf factory l).testBit i
            != (digestOf factory (perturbed l p.1 p.2)).testBit i)
      (l := List.product (List.range l.length) (List.range 8))
    rw [length_product_range] at h
    exact h
  obtain ⟨-, -, h3, h4, -⟩ := avalanche_spec factory inp v
  refine ⟨h3, h4, Nat.zero_le _, bound inp v, ?_, ?_⟩
  · rw [eval_vars]
    exact (avalanche_spec factory _ _).2.2.1
  · rw [eval_vars]
    have h := bound (megabyte.take 256)
      (biasPhase factory megabyte (timingLoop megabyte (initVars factory digest0)))
    have hl : (megabyte.take 256).length ≤ 256 := by
      rw [List.length_take]; omega
    omega

/-- Witness of C6: a two-byte reference input, output bit 3. -/
theorem avalanche_trial_count_witness :
    (avalanchePhase lastByteStub [5, 6] (initVars lastByteStub 0)).trials = [5, 6].length * 8 ∧
    (avalanchePhase lastByteStub [5, 6] (initVars lastByteStub 0)).constructed
      = (initVars lastByteStub 0).constructed + 1 + [5, 6].length * 8 ∧
    0 ≤ (avalanchePhase lastByteStub [5, 6] (initVars lastByteStub 0)).differed.getD 3 0 ∧
    (avalanchePhase lastByteStub [5, 6] (initVars lastByteStub 0)).differed.getD 3 0
      ≤ [5, 6].length * 8 ∧
    (eval lastByteStub [5, 6, 7] 0).vars.trials = ([5, 6, 7].take 256).length * 8 ∧
    (eval lastByteStub [5, 6, 7] 0).vars.differed.getD 3 0 ≤ 2048 :=
  avalanche_trial_count lastByteStub [5, 6] [5, 6, 7] (initVars lastByteStub 0) 0 3
    (by decide)

/-! ## Monotonicity, bounds and the shape of the correlation table -/

/-- The list of the pairs read by the reporting loops, row by row. -/
theorem pairReads_eq :
    pairReads
      = (List.range 31).flatMap
          (fun i => (List.range' (i + 1) (32 - (i + 1))).map (fun j => (i, j))) := by
  have inner : ∀ (i : Nat) (l : List Nat) (acc : List (Nat × Nat)),
      l.foldl (fun acc j => acc ++ [(i, j)]) acc = acc ++ l.map (fun j => (i, j)) := by
    intro i l
    induction l with
    | nil => intro acc; simp
    | cons x xs ih => intro acc; simp [ih]
  have outer : ∀ (is : List Nat) (acc : List (Nat × Nat)),
      is.foldl
          (fun acc i =>
            (List.range' (i + 1) (32 - (i + 1))).foldl (fun acc j => acc ++ [(i, j)]) acc)
          acc
        = acc ++ is.flatMap
            (fun i => (List.range' (i + 1) (32 - (i + 1))).map (fun j => (i, j))) := by
    intro is
    induction is with
    | nil => intro acc; simp
    | cons x xs ih =>
      intro acc
      simp only [List.foldl_cons, List.flatMap_cons]
      rw [ih, inner, List.append_assoc]
  unfold pairReads
  rw [outer]
  simp

/-- The reporting loops of lines 113-114 read 496 cells, no cell twice, and exactly those of
the pairs `(a, b)` with `a < b < 32`. -/
theorem pairReads_spec :
    pairReads.length = 496 ∧ pairReads.Nodup ∧
    ∀ a b, (a, b) ∈ pairReads ↔ a < b ∧ b < 32 := by
  rw [pairReads_eq]
  refine ⟨?_, ?_, ?_⟩
  · rw [List.length_flatMap]
    have h : List.map
        (List.length ∘ fun i => (List.range' (i + 1) (32 - (i + 1))).map (fun j => (i, j)))
        (List.range 31) = List.map (fun i => 32 - (i + 1)) (List.range 31) := by
      apply List.map_congr_left
      intro i _
      simp
    rw [h]
    decide
  · rw [List.nodup_flatMap]
    constructor
    · intro i _
      apply List.Nodup.map
      · intro x y hxy
        exact (Prod.mk.inj hxy).2
      · exact List.nodup_range' _ _
    · apply List.Pairwise.imp _ (List.nodup_range 31)
      intro x y hxy
      show List.Disjoint _ _
      intro p hp1 hp2
      rw [List.mem_map] at hp1 hp2
      obtain ⟨j1, _, e1⟩ := hp1
      obtain ⟨j2, _, e2⟩ := hp2
      apply hxy
      rw [← e2] at e1
      exact (Prod.mk.inj e1).1
  · intro a b
    simp only [List.mem_flatMap, List.mem_map, List.mem_range, List.mem_range'_1, Prod.mk.injEq]
    constructor
    · rintro ⟨i, hi, j, hj, rfl, rfl⟩
      omega
    · intro h
      exact ⟨a, by omega, b, by omega, rfl, rfl⟩

/-- C7: during the bias pass every entry of `zeroes` and of `correlations` is raised by
zero or one per digest and never lowered, after the first `n` bytes every entry is at most
`n`, and after the full pass, the state with which `eval` returns, every entry is at most
the number of samples. -/
theorem counters_monotone_bounded (factory : Unit → roller) (megabyte : List Nat)
    (digest0 n c : Nat) :
    (afterSamples factory megabyte digest0 n).zeroes.getD c 0 ≤ n ∧
    (afterSamples factory megabyte digest0 n).zeroes.getD c 0
      ≤ (afterSamples factory megabyte digest0 (n + 1)).zeroes.getD c 0 ∧
    (afterSamples factory megabyte digest0 (n + 1)).zeroes.getD c 0
      ≤ (afterSamples factory megabyte digest0 n).zeroes.getD c 0 + 1 ∧
    (afterSamples factory megabyte digest0 n).correlations.getD c 0 ≤ n ∧
    (afterSamples factory megabyte digest0 n).correlations.getD c 0
      ≤ (afterSamples factory megabyte digest0 (n + 1)).correlations.getD c 0 ∧
    (afterSamples factory megabyte digest0 (n + 1)).correlations.getD c 0
      ≤ (afterSamples factory megabyte digest0 n).correlations.getD c 0 + 1 ∧
    (eval factory megabyte digest0).vars.zeroes
      = (afterSamples factory megabyte digest0 megabyte.length).zeroes ∧
    (eval factory megabyte digest0).vars.correlations
      = (afterSamples factory megabyte digest0 megabyte.length).correlations ∧
    (eval factory megabyte digest0).vars.zeroes.getD c 0 ≤ megabyte.length ∧
    (eval factory megabyte digest0).vars.correlations.getD c 0 ≤ megabyte.length := by
  obtain ⟨⟨P, hP⟩, ⟨Q, hQ⟩⟩ := bias_cells factory megabyte digest0 c
  have sP := countP_digests_step P (factory ()) megabyte
  have sQ := countP_digests_step Q (factory ()) megabyte
  have ez : (eval factory megabyte digest0).vars.zeroes
      = (afterSamples factory megabyte digest0 megabyte.length).zeroes := by
    rw [eval_vars, (avalanche_frame _ _ _).1]
    unfold afterSamples
    rw [List.take_length]
  have ec : (eval factory megabyte digest0).vars.correlations
      = (afterSamples factory megabyte digest0 megabyte.length).correlations := by
    rw [eval_vars, (avalanche_frame _ _ _).2]
    unfold afterSamples
    rw [List.take_length]
  rw [ez, ec]
  unfold afterSamples
  rw [hP, hP, hP, hQ, hQ, hQ]
  exact ⟨(sP n).1, (sP n).2.1, (sP n).2.2, (sQ n).1, (sQ n).2.1, (sQ n).2.2, rfl, rfl,
    (sP megabyte.length).1, (sQ megabyte.length).1⟩

/-- C8: every cell `correlations[32*i+j]` with `0 ≤ j ≤ i < 32` is zero after any number of
iterations of the bias pass (so it is never incremented) and when `eval` returns; the
reporting loops read the cells of the 496 pairs `(a, b)` with `a < b < 32`, each once, and
print only such pairs. -/
theorem correlations_upper_triangular (factory : Unit → roller) (megabyte : List Nat)
    (digest0 n i j : Nat) (hji : j ≤ i) (hi : i < 32) :
    (afterSamples factory megabyte digest0 n).correlations.getD (32 * i + j) 0 = 0 ∧
    (eval factory megabyte digest0).vars.correlations.getD (32 * i + j) 0 = 0 ∧
    pairReads.length = 496 ∧ pairReads.Nodup ∧
    (∀ a b, (a, b) ∈ pairReads ↔ a < b ∧ b < 32) ∧
    (∀ a b, (a, b) ∈ (eval factory megabyte digest0).correlatedPairs → a < b ∧ b < 32) := by
  have hj : j < 32 := by omega
  have hnot : ¬ i < j := by omega
  have zero : ∀ b,
      (biasPhase factory b
        (timingLoop megabyte (initVars factory digest0))).correlations.getD (32 * i + j) 0
        = 0 := by
    intro b
    have h := (biasPhase_timed factory b megabyte digest0).2.2.2 i j hi hj
    unfold cell at h
    rw [h, List.countP_eq_zero]
    intro d _
    simp [hnot]
  obtain ⟨h1, h2, h3⟩ := pairReads_spec
  refine ⟨zero _, ?_, h1, h2, h3, ?_⟩
  · rw [eval_vars, (avalanche_frame _ _ _).2]
    exact zero megabyte
  · intro a b hab
    have hmem : (a, b) ∈ pairReads := by
      rw [eval_correlatedPairs] at hab
      exact List.mem_of_mem_filter hab
    exact (h3 a b).1 hmem

/-- Witness of C8: the diagonal cell of bit 2 after one of three bytes. -/
theorem correlations_upper_triangular_witness :
    (afterSamples lastByteStub [7, 8, 9] 0 1).correlations.getD (32 * 2 + 2) 0 = 0 ∧
    (eval lastByteStub [7, 8, 9] 0).vars.correlations.getD (32 * 2 + 2) 0 = 0 ∧
    pairReads.length = 496 ∧ pairReads.Nodup ∧
    (∀ a b, (a, b) ∈ pairReads ↔ a < b ∧ b < 32) ∧
    (∀ a b, (a, b) ∈ (eval lastByteStub [7, 8, 9] 0).correlatedPairs → a < b ∧ b < 32) :=
  correlations_upper_triangular lastByteStub [7, 8, 9] 0 1 2 2 (by decide) (by decide)

/-! ## The last-byte stub -/

/-- Rolling any bytes into the last-byte stub leaves a roller of the same kind. -/
theorem lastByte_fold (l : List Nat) :
    ∀ (s : Nat), ∃ s2 : Nat,
      l.foldl (fun r x => r.Roll x) (lastByteAt s) = lastByteAt s2 := by
  induction l with
  | nil => intro s; exact ⟨s, rfl⟩
  | cons x xs ih => intro s; exact ih x

/-- The digest of trial `(j, k)` of the last-byte stub on a non-empty reference input is the
last byte that the trial rolls. -/
theorem lastByte_trial (inp : List Nat) (n j k : Nat) (hn : inp.length = n + 1) :
    trialDigest lastByteStub inp j k = trialByte inp j k n % 4294967296 := by
  unfold trialDigest trialRoller
  rw [hn, List.range_succ, List.foldl_append]
  obtain ⟨s2, h2⟩ := lastByte_fold ((List.range n).map (trialByte inp j k)) 0
  rw [List.foldl_map] at h2
  have h3 : lastByteStub () = lastByteAt 0 := rfl
  rw [h3, h2]
  rfl

/-- The reference digest of the last-byte stub on a non-empty reference input is its last
byte. -/
theorem lastByte_reference (inp : List Nat) (n : Nat) (hn : inp.length = n + 1) :
    (referenceRoller lastByteStub inp).Digest.1 = inp.getD n 0 % 4294967296 := by
  unfold referenceRoller
  rw [hn, List.range_succ, List.foldl_append]
  obtain ⟨s2, h2⟩ := lastByte_fold ((List.range n).map (fun i => inp.getD i 0)) 0
  rw [List.foldl_map] at h2
  have h3 : lastByteStub () = lastByteAt 0 := rfl
  rw [h3, h2]
  rfl

/-- The digests of the trials of the last-byte stub on 256 zero bytes. -/
theorem lastByte_zero_trials (j k : Nat) (hk : k < 8) :
    trialDigest lastByteStub (List.replicate 256 0) j k = if j = 255 then 2 ^ k else 0 := by
  rw [lastByte_trial (List.replicate 256 0) 255 j k (by rw [List.length_replicate])]
  unfold trialByte
  rw [getD_replicate_zero]
  have h2 : (1 <<< k) % 256 = 2 ^ k := by
    rw [Nat.one_shiftLeft]
    apply Nat.mod_eq_of_lt
    have : (2 : Nat) ^ k < 2 ^ 8 := Nat.pow_lt_pow_right (by decide) hk
    simpa using this
  have h3 : (2 : Nat) ^ k < 4294967296 := by
    have : (2 : Nat) ^ k < 2 ^ 32 := Nat.pow_lt_pow_right (by decide) (by omega)
    simpa using this
  by_cases hj : j = 255
  · subst hj
    simp only [if_true, h2, Nat.zero_xor]
    exact Nat.mod_eq_of_lt h3
  · have hj2 : ¬ 255 = j := fun h => hj h.symm
    simp [hj, hj2]

/-! ## The end-to-end scenario of the last-byte stub -/

/-- C9, refuted as stated: for the last-byte stub and 256 zero bytes, the perturbation of
bit 0 of byte 0 produces the digest 0, not `2^0`. -/
theorem stub_scenario_counterexample :
    ¬ (trialDigest lastByteStub (List.replicate 256 0) 0 0 = 2 ^ 0) := by
  rw [lastByte_zero_trials 0 0 (by decide)]
  decide

/-- C9, amended: for the stub roller whose digest is the most recently rolled byte and a
reference input of 256 zero bytes, the avalanche phase computes the reference digest 0, and
the single-bit perturbation at position `(j, k)`, `j` in `[0,256)` and `k` in `[0,8)`,
produces the digest `2^k` when `j = 255` (the last byte) and the digest 0 otherwise. -/
theorem stub_scenario (v : Vars) (j k : Nat) (hj : j < 256) (hk : k < 8) :
    (avalanchePhase lastByteStub (List.replicate 256 0) v).digest = 0 ∧
    (referenceRoller lastByteStub (List.replicate 256 0)).Digest.1 = 0 ∧
    trialDigest lastByteStub (List.replicate 256 0) j k = (if j = 255 then 2 ^ k else 0) ∧
    (j = 255 → trialDigest lastByteStub (List.replicate 256 0) j k = 2 ^ k) ∧
    (j < 255 → trialDigest lastByteStub (List.replicate 256 0) j k = 0) := by
  have href : (referenceRoller lastByteStub (List.replicate 256 0)).Digest.1 = 0 := by
    rw [lastByte_reference (List.replicate 256 0) 255 (by rw [List.length_replicate]),
      getD_replicate_zero]
  have ht := lastByte_zero_trials j k hk
  refine ⟨?_, href, ht, fun h => by rw [ht, if_pos h], fun h => ?_⟩
  · rw [(avalanche_spec lastByteStub _ v).1, ← referenceDigest_eq]
    exact href
  · rw [ht, if_neg (by omega)]

/-- Witness of C9 amended: the perturbation of bit 3 of the last byte. -/
theorem stub_scenario_witness :
    (avalanchePhase lastByteStub (List.replicate 256 0) (initVars lastByteStub 0)).digest = 0 ∧
    (referenceRoller lastByteStub (List.replicate 256 0)).Digest.1 = 0 ∧
    trialDigest lastByteStub (List.replicate 256 0) 255 3
      = (if 255 = 255 then 2 ^ 3 else 0) ∧
    (255 = 255 → trialDigest lastByteStub (List.replicate 256 0) 255 3 = 2 ^ 3) ∧
    (255 < 255 → trialDigest lastByteStub (List.replicate 256 0) 255 3 = 0) :=
  stub_scenario (initVars lastByteStub 0) 255 3 (by decide) (by decide)

/-! ## Determinism and independence of the phases -/

/-- The counters of the bias loop depend only on the roller and the counters it starts
with, not on the value of `digest`. -/
theorem biasLoop_indep (b : List Nat) :
    ∀ (v w : Vars), v.r = w.r → v.zeroes = w.zeroes → v.correlations = w.correlations →
      (b.foldl biasBody v).zeroes = (b.foldl biasBody w).zeroes ∧
      (b.foldl biasBody v).correlations = (b.foldl biasBody w).correlations := by
  induction b with
  | nil => intro v w _ hz hc; exact ⟨hz, hc⟩
  | cons x xs ih =>
    intro v w hr hz hc
    simp only [List.foldl_cons]
    apply ih
    · show (v.r.Roll x).Digest.2 = (w.r.Roll x).Digest.2
      rw [hr]
    · show (bitLoop (v.r.Roll x).Digest.1 (v.zeroes, v.correlations)).1
        = (bitLoop (w.r.Roll x).Digest.1 (w.zeroes, w.correlations)).1
      rw [hr, hz, hc]
    · show (bitLoop (v.r.Roll x).Digest.1 (v.zeroes, v.correlations)).2
        = (bitLoop (w.r.Roll x).Digest.1 (w.zeroes, w.correlations)).2
      rw [hr, hz, hc]

/-- The counters of the bias phase depend only on the counters it starts with. -/
theorem biasPhase_indep (factory : Unit → roller) (b : List Nat) (v w : Vars)
    (hz : v.zeroes = w.zeroes) (hc : v.correlations = w.correlations) :
    (biasPhase factory b v).zeroes = (biasPhase factory b w).zeroes ∧
    (biasPhase factory b v).correlations = (biasPhase factory b w).correlations :=
  biasLoop_indep b _ _ rfl hz hc

/-- The counters of a sequence of trials depend only on the reference digest and the
counters it starts with. -/
theorem trials_indep (factory : Unit → roller) (inp : List Nat) (ps : List (Nat × Nat)) :
    ∀ (v w : Vars), v.digest = w.digest → v.differed = w.differed →
      (ps.foldl (fun v p => trialBody factory inp p.1 v p.2) v).differed
        = (ps.foldl (fun v p => trialBody factory inp p.1 v p.2) w).differed := by
  induction ps with
  | nil => intro v w _ hd; exact hd
  | cons p ps ih =>
    intro v w hg hd
    simp only [List.foldl_cons]
    apply ih
    · exact hg
    · show diffLoop v.digest _ v.differed = diffLoop w.digest _ w.differed
      rw [hg, hd]

/-- The counters of the avalanche phase do not depend on the variables it starts with. -/
theorem avalanche_indep (factory : Unit → roller) (inp : List Nat) (v w : Vars) :
    (avalanchePhase factory inp v).differed = (avalanchePhase factory inp w).differed := by
  unfold avalanchePhase
  simp only []
  rw [foldl_product (trialBody factory inp), foldl_product (trialBody factory inp)]
  exact trials_indep factory inp _ _ _ rfl rfl

theorem eval_biasedBits (factory : Unit → roller) (megabyte : List Nat) (digest0 : Nat) :
    (eval factory megabyte digest0).biasedBits
      = (List.range 32).filter (fun i =>
          flagged
            ((biasPhase factory megabyte
              (timingLoop megabyte (initVars factory digest0))).zeroes.getD i 0)
            megabyte.length) := by
  unfold eval
  simp only []

theorem eval_avalancheBits (factory : Unit → roller) (megabyte : List Nat) (digest0 : Nat) :
    (eval factory megabyte digest0).avalancheBits
      = (List.range 32).filter (fun i =>
          flagged ((eval factory megabyte digest0).vars.differed.getD i 0)
            (8 * (megabyte.take 256).length)) := by
  unfold eval
  simp only []

/-- C10: two runs of `eval` on the same buffer with the same factory, whatever value the
package-level `digest` holds on entry, end with the same `zeroes`, `correlations` and
`differed` and print the same entries; the counters of the bias phase do not depend on the
roller and digest left behind by the timing phase, those of the avalanche phase do not
depend on anything left behind by the earlier phases, and those of a trial do not depend on
the roller left behind by the trial before. -/
theorem eval_deterministic (factory : Unit → roller) (megabyte inp : List Nat)
    (digest0 digest1 : Nat) (v w : Vars) (r2 : roller) (d2 j k : Nat) :
    (eval factory megabyte digest0).vars.zeroes = (eval factory megabyte digest1).vars.zeroes ∧
    (eval factory megabyte digest0).vars.correlations
      = (eval factory megabyte digest1).vars.correlations ∧
    (eval factory megabyte digest0).vars.differed
      = (eval factory megabyte digest1).vars.differed ∧
    (eval factory megabyte digest0).biasedBits = (eval factory megabyte digest1).biasedBits ∧
    (eval factory megabyte digest0).correlatedPairs
      = (eval factory megabyte digest1).correlatedPairs ∧
    (eval factory megabyte digest0).avalancheBits
      = (eval factory megabyte digest1).avalancheBits ∧
    (biasPhase factory megabyte { v with r := r2, digest := d2 }).zeroes
      = (biasPhase factory megabyte v).zeroes ∧
    (biasPhase factory megabyte { v with r := r2, digest := d2 }).correlations
      = (biasPhase factory megabyte v).correlations ∧
    (avalanchePhase factory inp v).differed = (avalanchePhase factory inp w).differed ∧
    (trialBody factory inp j { v with r := r2 } k).differed
      = (trialBody factory inp j v k).differed := by
  have hz0 : (timingLoop megabyte (initVars factory digest0)).zeroes
      = (timingLoop megabyte (initVars factory digest1)).zeroes := by
    rw [(timingLoop_frame megabyte _).1, (timingLoop_frame megabyte _).1]
    rfl
  have hc0 : (timingLoop megabyte (initVars factory digest0)).correlations
      = (timingLoop megabyte (initVars factory digest1)).correlations := by
    rw [(timingLoop_frame megabyte _).2.1, (timingLoop_frame megabyte _).2.1]
    rfl
  obtain ⟨hz, hc⟩ := biasPhase_indep factory megabyte _ _ hz0 hc0
  have hd : (eval factory megabyte digest0).vars.differed
      = (eval factory megabyte digest1).vars.differed := by
    rw [eval_vars, eval_vars]
    exact avalanche_indep factory _ _ _
  refine ⟨?_, ?_, hd, ?_, ?_, ?_, ?_, ?_, avalanche_indep factory inp v w, rfl⟩
  · rw [eval_vars, eval_vars, (avalanche_frame _ _ _).1, (avalanche_frame _ _ _).1]
    exact hz
  · rw [eval_vars, eval_vars, (avalanche_frame _ _ _).2, (avalanche_frame _ _ _).2]
    exact hc
  · rw [eval_biasedBits, eval_biasedBits, hz]
  · rw [eval_correlatedPairs, eval_correlatedPairs, hc]
  · rw [eval_avalancheBits, eval_avalancheBits, hd]
  · exact (biasPhase_indep factory megabyte { v with r := r2, digest := d2 } v rfl rfl).1
  · exact (biasPhase_indep factory megabyte { v with r := r2, digest := d2 } v rfl rfl).2

/-! ## Unknown algorithm names -/

/-- C5, evaluated on the code: for the name `doesnotexist` the lookup in `hashes` finds
nothing, `main` prints the seed and the name, passes the nil factory to `eval` and dies in
the call of `factory()`; no phase runs and no error that names the algorithm is produced. -/
theorem unknown_name_panics (lib : Library) (rng : Int → List Nat) (seed : Int) :
    (hashes lib).lookup "doesnotexist" = none ∧
    main lib rng false seed ["doesnotexist"]
      = [Event.printedSeed seed, Event.printedName "doesnotexist", Event.nilFactoryPanic] ∧
    Event.unknownAlgorithm "doesnotexist" ∉ main lib rng false seed ["doesnotexist"] := by
  have hl : (hashes lib).lookup "doesnotexist" = none := by
    simp [hashes, List.lookup]
  have hm : main lib rng false seed ["doesnotexist"]
      = [Event.printedSeed seed, Event.printedName "doesnotexist", Event.nilFactoryPanic] := by
    simp [main, evalNames, evalCall, hl]
  refine ⟨hl, hm, ?_⟩
  rw [hm]
  simp

/-! ## The tolerance band -/

theorem roundHalfEven_intCast (M : ℤ) : roundHalfEven (M : ℚ) = M := by
  unfold roundHalfEven
  simp

/-- A positive number with a significand below `2^24` is its own `float32`. -/
theorem float32_exact (m : ℕ) (t : ℤ) (hm0 : 0 < m) (hm : m < 2 ^ 24) :
    float32 ((m : ℚ) * 2 ^ t) = (m : ℚ) * 2 ^ t := by
  have hx : (0 : ℚ) < (m : ℚ) * 2 ^ t := by positivity
  have hlt : (m : ℚ) * 2 ^ t < ((2 : ℕ) : ℚ) ^ (24 + t) := by
    rw [zpow_add₀ (by norm_num)]
    apply mul_lt_mul_of_pos_right _ (by positivity)
    exact_mod_cast hm
  have he : Int.log 2 ((m : ℚ) * 2 ^ t) < 24 + t :=
    (Int.lt_zpow_iff_log_lt (by norm_num) hx).1 hlt
  unfold float32
  rw [if_neg hx.ne']
  simp only []
  generalize Int.log 2 ((m : ℚ) * 2 ^ t) = e at he
  obtain ⟨k, hk⟩ : ∃ k : ℕ, (k : ℤ) = t + 23 - e :=
    ⟨(t + 23 - e).toNat, Int.toNat_of_nonneg (by omega)⟩
  have h1 : (m : ℚ) * 2 ^ t * 2 ^ (23 - e) = (((m : ℤ) * 2 ^ k : ℤ) : ℚ) := by
    push_cast
    rw [mul_assoc, ← zpow_add₀ (by norm_num), ← zpow_natCast, hk]
    congr 2; ring
  rw [h1, roundHalfEven_intCast]
  push_cast
  rw [← zpow_natCast, hk, mul_assoc, ← zpow_add₀ (by norm_num)]
  congr 2; ring

/-- The `float32` nearest to 0.49 is `16441672 / 2^25`, a little above 0.49. -/
theorem float32_049 : float32 (49 / 100) = 16441672 / 2 ^ 25 := by
  have hlog : Int.log 2 ((49 : ℚ) / 100) = -2 := by
    apply le_antisymm
    · have : Int.log 2 ((49 : ℚ) / 100) < -1 := by
        rw [← Int.lt_zpow_iff_log_lt (by norm_num) (by norm_num)]
        norm_num
      omega
    · rw [← Int.zpow_le_iff_le_log (by norm_num) (by norm_num)]
      norm_num
  have hfl : ⌊(49 : ℚ) / 100 * 2 ^ (25 : ℤ)⌋ = 16441671 := by
    rw [Int.floor_eq_iff]
    norm_num
  unfold float32
  rw [if_neg (by norm_num)]
  simp only [hlog]
  unfold roundHalfEven
  norm_num [hfl]

/-- The `float32` nearest to 0.51 is `8556380 / 2^24`, a little below 0.51. -/
theorem float32_051 : float32 (51 / 100) = 8556380 / 2 ^ 24 := by
  have hlog : Int.log 2 ((51 : ℚ) / 100) = -1 := by
    apply le_antisymm
    · have : Int.log 2 ((51 : ℚ) / 100) < 0 := by
        rw [← Int.lt_zpow_iff_log_lt (by norm_num) (by norm_num)]
        norm_num
      omega
    · rw [← Int.zpow_le_iff_le_log (by norm_num) (by norm_num)]
      norm_num
  have hfl : ⌊(51 : ℚ) / 100 * 2 ^ (24 : ℤ)⌋ = 8556380 := by
    rw [Int.floor_eq_iff]
    norm_num
  unfold float32
  rw [if_neg (by norm_num)]
  simp only [hlog]
  unfold roundHalfEven
  norm_num [hfl]

/-- For a counter `z ≤ 2^t`, `t ≤ 23`, the quotient `float32(z) / float32(2^t)` is computed
without rounding. -/
theorem frac_exact (z t : Nat) (ht : t ≤ 23) (hz : z ≤ 2 ^ t) :
    float32 (float32 (z : ℚ) / float32 ((2 ^ t : Nat) : ℚ)) = (z : ℚ) / 2 ^ t := by
  have hpow : (2 : Nat) ^ t < 2 ^ 24 := Nat.pow_lt_pow_right (by decide) (by omega)
  have hden : float32 ((2 ^ t : Nat) : ℚ) = 2 ^ t := by
    have h := float32_exact (2 ^ t) 0 (by positivity) hpow
    simpa using h
  by_cases hz0 : z = 0
  · subst hz0
    simp [float32]
  · have hnum : float32 (z : ℚ) = z := by
      have h := float32_exact z 0 (by omega) (by omega)
      simpa using h
    have h := float32_exact z (-(t : ℤ)) (by omega) (by omega)
    rw [hnum, hden]
    have e : (z : ℚ) / 2 ^ t = (z : ℚ) * 2 ^ (-(t : ℤ)) := by
      rw [zpow_neg, zpow_natCast, div_eq_mul_inv]
    rw [e]
    exact h

theorem cast_lt_iff_le (z c : Nat) (q : ℚ) (h1 : (c : ℚ) < q) (h2 : q < c + 1) :
    (z : ℚ) < q ↔ z ≤ c := by
  constructor
  · intro h
    by_contra hc
    have h3 : ((c + 1 : Nat) : ℚ) ≤ z := by exact_mod_cast (by omega : c + 1 ≤ z)
    push_cast at h3
    linarith
  · intro h
    have h3 : (z : ℚ) ≤ c := by exact_mod_cast h
    linarith

theorem lt_cast_iff_le (z c : Nat) (q : ℚ) (h1 : (c : ℚ) - 1 < q) (h2 : q < c) :
    q < (z : ℚ) ↔ c ≤ z := by
  constructor
  · intro h
    by_contra hc
    have h3 : ((z + 1 : Nat) : ℚ) ≤ c := by exact_mod_cast (by omega : z + 1 ≤ c)
    push_cast at h3
    linarith
  · intro h
    have h3 : (c : ℚ) ≤ z := by exact_mod_cast h
    linarith

/-- The test of `eval` on a counter out of `2^20` samples agrees with the exact band. -/
theorem flagged_megabyte (z : Nat) (hz : z ≤ 1048576) :
    flagged z 1048576 = true
      ↔ (z : ℚ) / 1048576 < 49 / 100 ∨ (z : ℚ) / 1048576 > 51 / 100 := by
  have hf := frac_exact z 20 (by decide) (by simpa using hz)
  have hN : ((2 ^ 20 : Nat) : ℚ) = ((1048576 : Nat) : ℚ) := by norm_num
  rw [hN] at hf
  unfold flagged
  rw [if_neg (by decide)]
  simp only [hf, float32_049, float32_051, Bool.or_eq_true, decide_eq_true_eq, gt_iff_lt]
  have a1 : (z : ℚ) / 2 ^ 20 < 16441672 / 2 ^ 25 ↔ z ≤ 513802 := by
    rw [div_lt_iff₀ (by norm_num)]
    exact cast_lt_iff_le z 513802 _ (by norm_num) (by norm_num)
  have a2 : (z : ℚ) / 1048576 < 49 / 100 ↔ z ≤ 513802 := by
    rw [div_lt_iff₀ (by norm_num)]
    exact cast_lt_iff_le z 513802 _ (by norm_num) (by norm_num)
  have b1 : (8556380 : ℚ) / 2 ^ 24 < (z : ℚ) / 2 ^ 20 ↔ 534774 ≤ z := by
    rw [lt_div_iff₀ (by norm_num)]
    exact lt_cast_iff_le z 534774 _ (by norm_num) (by norm_num)
  have b2 : (51 : ℚ) / 100 < (z : ℚ) / 1048576 ↔ 534774 ≤ z := by
    rw [lt_div_iff₀ (by norm_num)]
    exact lt_cast_iff_le z 534774 _ (by norm_num) (by norm_num)
  rw [a1, a2, b1, b2]

/-- The test of `eval` on a counter out of 2048 trials agrees with the exact band. -/
theorem flagged_trials (z : Nat) (hz : z ≤ 2048) :
    flagged z 2048 = true ↔ (z : ℚ) / 2048 < 49 / 100 ∨ (z : ℚ) / 2048 > 51 / 100 := by
  have hf := frac_exact z 11 (by decide) (by simpa using hz)
  have hN : ((2 ^ 11 : Nat) : ℚ) = ((2048 : Nat) : ℚ) := by norm_num
  rw [hN] at hf
  unfold flagged
  rw [if_neg (by decide)]
  simp only [hf, float32_049, float32_051, Bool.or_eq_true, decide_eq_true_eq, gt_iff_lt]
  have a1 : (z : ℚ) / 2 ^ 11 < 16441672 / 2 ^ 25 ↔ z ≤ 1003 := by
    rw [div_lt_iff₀ (by norm_num)]
    exact cast_lt_iff_le z 1003 _ (by norm_num) (by norm_num)
  have a2 : (z : ℚ) / 2048 < 49 / 100 ↔ z ≤ 1003 := by
    rw [div_lt_iff₀ (by norm_num)]
    exact cast_lt_iff_le z 1003 _ (by norm_num) (by norm_num)
  have b1 : (8556380 : ℚ) / 2 ^ 24 < (z : ℚ) / 2 ^ 11 ↔ 1045 ≤ z := by
    rw [lt_div_iff₀ (by norm_num)]
    exact lt_cast_iff_le z 1045 _ (by norm_num) (by norm_num)
  have b2 : (51 : ℚ) / 100 < (z : ℚ) / 2048 ↔ 1045 ≤ z := by
    rw [lt_div_iff₀ (by norm_num)]
    exact lt_cast_iff_le z 1045 _ (by norm_num) (by norm_num)
  rw [a1, a2, b1, b2]

/-- The counters with which `eval` returns are bounded by the number of samples. -/
theorem eval_counter_bounds (factory : Unit → roller) (megabyte : List Nat)
    (digest0 c : Nat) :
    (eval factory megabyte digest0).vars.zeroes.getD c 0 ≤ megabyte.length ∧
    (eval factory megabyte digest0).vars.correlations.getD c 0 ≤ megabyte.length ∧
    (c < 32 →
      (eval factory megabyte digest0).vars.differed.getD c 0
        ≤ 8 * (megabyte.take 256).length) := by
  obtain ⟨⟨P, hP⟩, ⟨Q, hQ⟩⟩ := bias_cells factory megabyte digest0 c
  rw [eval_vars, (avalanche_frame _ _ _).1, (avalanche_frame _ _ _).2, hP, hQ]
  have h1 : (digests (factory ()) megabyte).countP P ≤ (digests (factory ()) megabyte).length :=
    List.countP_le_length P
  have h2 : (digests (factory ()) megabyte).countP Q ≤ (digests (factory ()) megabyte).length :=
    List.countP_le_length Q
  rw [length_digests] at h1 h2
  refine ⟨h1, h2, fun hc => ?_⟩
  rw [(avalanche_spec factory _ _).2.2.2.2 c hc]
  have h := List.countP_le_length (fun p : Nat × Nat =>
        (digestOf factory (megabyte.take 256)).testBit c
          != (digestOf factory (perturbed (megabyte.take 256) p.1 p.2)).testBit c)
    (l := List.product (List.range (megabyte.take 256).length) (List.range 8))
  rw [length_product_range] at h
  omega

/-- The `float32` nearest to 0.489999 is `16441638 / 2^25`. -/
theorem float32_0489999 : float32 (489999 / 1000000) = 16441638 / 2 ^ 25 := by
  have hlog : Int.log 2 ((489999 : ℚ) / 1000000) = -2 := by
    apply le_antisymm
    · have : Int.log 2 ((489999 : ℚ) / 1000000) < -1 := by
        rw [← Int.lt_zpow_iff_log_lt (by norm_num) (by norm_num)]
        norm_num
      omega
    · rw [← Int.zpow_le_iff_le_log (by norm_num) (by norm_num)]
      norm_num
  have hfl : ⌊(489999 : ℚ) / 1000000 * 2 ^ (25 : ℤ)⌋ = 16441638 := by
    rw [Int.floor_eq_iff]
    norm_num
  unfold float32
  rw [if_neg (by norm_num)]
  simp only [hlog]
  unfold roundHalfEven
  norm_num [hfl]

/-- The `float32` nearest to 0.510001 is `8556397 / 2^24`. -/
theorem float32_0510001 : float32 (510001 / 1000000) = 8556397 / 2 ^ 24 := by
  have hlog : Int.log 2 ((510001 : ℚ) / 1000000) = -1 := by
    apply le_antisymm
    · have : Int.log 2 ((510001 : ℚ) / 1000000) < 0 := by
        rw [← Int.lt_zpow_iff_log_lt (by norm_num) (by norm_num)]
        norm_num
      omega
    · rw [← Int.zpow_le_iff_le_log (by norm_num) (by norm_num)]
      norm_num
  have hfl : ⌊(510001 : ℚ) / 1000000 * 2 ^ (24 : ℤ)⌋ = 8556396 := by
    rw [Int.floor_eq_iff]
    norm_num
  unfold float32
  rw [if_neg (by norm_num)]
  simp only [hlog]
  unfold roundHalfEven
  norm_num [hfl]

/-- For a counter and a sample count below `2^24` the conversions to `float32` are exact,
so the test of the source compares the `float32` nearest to the exact fraction with the
two thresholds. -/
theorem flagged_small (z n : Nat) (hz0 : 0 < z) (hz : z ≤ n) (hn : n < 2 ^ 24) :
    flagged z n
      = (decide (float32 ((z : ℚ) / n) < float32 (49 / 100))
          || decide (float32 ((z : ℚ) / n) > float32 (51 / 100))) := by
  have hzf : float32 (z : ℚ) = z := by
    have h := float32_exact z 0 hz0 (by omega)
    simpa using h
  have hnf : float32 (n : ℚ) = n := by
    have h := float32_exact n 0 (by omega) hn
    simpa using h
  unfold flagged
  rw [if_neg (by omega)]
  simp only [hzf, hnf]

/-- The test of the source does not flag a fraction of exactly 0.49 or exactly 0.51. -/
theorem flagged_on_boundary (z n : Nat) (hz : z ≤ n) (hn : n < 2 ^ 24)
    (h : (z : ℚ) / n = 49 / 100 ∨ (z : ℚ) / n = 51 / 100) : flagged z n = false := by
  have hz0 : 0 < z := by
    rcases Nat.eq_zero_or_pos z with h0 | h0
    · subst h0
      rcases h with h | h <;> norm_num at h
    · exact h0
  rw [flagged_small z n hz0 hz hn]
  rcases h with h | h <;> rw [h, float32_049, float32_051] <;> norm_num

/-- The test of the source flags a fraction of 0.489999 and a fraction of 0.510001. -/
theorem flagged_off_boundary (z n : Nat) (hz : z ≤ n) (hn : n < 2 ^ 24)
    (h : (z : ℚ) / n = 489999 / 1000000 ∨ (z : ℚ) / n = 510001 / 1000000) :
    flagged z n = true := by
  have hz0 : 0 < z := by
    rcases Nat.eq_zero_or_pos z with h0 | h0
    · subst h0
      rcases h with h | h <;> norm_num at h
    · exact h0
  rw [flagged_small z n hz0 hz hn]
  rcases h with h | h
  · rw [h, float32_0489999, float32_049, float32_051]
    norm_num
  · rw [h, float32_0510001, float32_049, float32_051]
    norm_num

/-- No counter out of `2^20` samples or out of `2^11` trials is a fraction of exactly 0.49
or exactly 0.51. -/
theorem no_boundary_counter (z n : Nat) (hn : n = 1048576 ∨ n = 2048) :
    (z : ℚ) / n ≠ 49 / 100 ∧ (z : ℚ) / n ≠ 51 / 100 := by
  rcases hn with h | h <;> subst h
  · constructor
    · intro h
      rw [div_eq_div_iff (by norm_num) (by norm_num)] at h
      have h2 : z * 100 = 49 * 1048576 := by exact_mod_cast h
      omega
    · intro h
      rw [div_eq_div_iff (by norm_num) (by norm_num)] at h
      have h2 : z * 100 = 51 * 1048576 := by exact_mod_cast h
      omega
  · constructor
    · intro h
      rw [div_eq_div_iff (by norm_num) (by norm_num)] at h
      have h2 : z * 100 = 49 * 2048 := by exact_mod_cast h
      omega
    · intro h
      rw [div_eq_div_iff (by norm_num) (by norm_num)] at h
      have h2 : z * 100 = 51 * 2048 := by exact_mod_cast h
      omega

/-- C4: on the counters that `eval` reports on, `z` out of `n = 1,048,576` samples or out
of `n = 2048` trials, the test `frac < .49 || frac > .51` of the source, computed in
`float32`, holds if and only if the exact fraction `z/n` is below 0.49 or above 0.51, and
no such counter lies on a boundary.  The test itself is strict at both ends: for every
counter `z2` out of `n2 < 2^24` samples, a fraction of exactly 0.49 or exactly 0.51 (as
49 of 100, 51 of 100) is not flagged, and a fraction of 0.489999 or 0.510001 (as 489999 or
510001 of 1000000) is flagged.  Hence, for a buffer of 1,048,576 bytes, `eval` prints bit
`b`, for every `b` in `[0,32)`, the pair `(i, j)`, for `i < j < 32`, and the avalanche bit
`b` exactly when the exact fraction of the counter is strictly outside the band. -/
theorem tolerance_band (factory : Unit → roller) (megabyte : List Nat)
    (digest0 z n b i j : Nat) (hlen : megabyte.length = 1048576)
    (hn : n = 1048576 ∨ n = 2048) (hz : z ≤ n) (hb : b < 32) (hij : i < j) (hj : j < 32) :
    (flagged z n = true ↔ (z : ℚ) / n < 49 / 100 ∨ (z : ℚ) / n > 51 / 100) ∧
    ((z : ℚ) / n ≠ 49 / 100 ∧ (z : ℚ) / n ≠ 51 / 100) ∧
    (∀ z2 n2 : Nat, z2 ≤ n2 → n2 < 2 ^ 24 →
      ((z2 : ℚ) / n2 = 49 / 100 ∨ (z2 : ℚ) / n2 = 51 / 100) → flagged z2 n2 = false) ∧
    (∀ z2 n2 : Nat, z2 ≤ n2 → n2 < 2 ^ 24 →
      ((z2 : ℚ) / n2 = 489999 / 1000000 ∨ (z2 : ℚ) / n2 = 510001 / 1000000) →
        flagged z2 n2 = true) ∧
    flagged 49 100 = false ∧ flagged 51 100 = false ∧
    flagged 489999 1000000 = true ∧ flagged 510001 1000000 = true ∧
    (b ∈ (eval factory megabyte digest0).biasedBits
      ↔ ((eval factory megabyte digest0).vars.zeroes.getD b 0 : ℚ) / 1048576 < 49 / 100
        ∨ ((eval factory megabyte digest0).vars.zeroes.getD b 0 : ℚ) / 1048576 > 51 / 100) ∧
    ((i, j) ∈ (eval factory megabyte digest0).correlatedPairs
      ↔ ((eval factory megabyte digest0).vars.correlations.getD (32 * i + j) 0 : ℚ) / 1048576
            < 49 / 100
        ∨ ((eval factory megabyte digest0).vars.correlations.getD (32 * i + j) 0 : ℚ) / 1048576
            > 51 / 100) ∧
    (b ∈ (eval factory megabyte digest0).avalancheBits
      ↔ ((eval factory megabyte digest0).vars.differed.getD b 0 : ℚ) / 2048 < 49 / 100
        ∨ ((eval factory megabyte digest0).vars.differed.getD b 0 : ℚ) / 2048 > 51 / 100) := by
  have hflag : flagged z n = true ↔ (z : ℚ) / n < 49 / 100 ∨ (z : ℚ) / n > 51 / 100 := by
    rcases hn with h | h
    · subst h; exact flagged_megabyte z hz
    · subst h; exact flagged_trials z hz
  have htake : (megabyte.take 256).length = 256 := by
    rw [List.length_take, hlen]; rfl
  have bz := (eval_counter_bounds factory megabyte digest0 b).1
  have bc := (eval_counter_bounds factory megabyte digest0 (32 * i + j)).2.1
  have bd := (eval_counter_bounds factory megabyte digest0 b).2.2 hb
  rw [hlen] at bz bc
  rw [htake] at bd
  refine ⟨hflag, no_boundary_counter z n hn,
    fun z2 n2 h1 h2 h3 => flagged_on_boundary z2 n2 h1 h2 h3,
    fun z2 n2 h1 h2 h3 => flagged_off_boundary z2 n2 h1 h2 h3,
    flagged_on_boundary 49 100 (by decide) (by decide) (Or.inl (by norm_num)),
    flagged_on_boundary 51 100 (by decide) (by decide) (Or.inr (by norm_num)),
    flagged_off_boundary 489999 1000000 (by decide) (by decide) (Or.inl (by norm_num)),
    flagged_off_boundary 510001 1000000 (by decide) (by decide) (Or.inr (by norm_num)),
    ?_, ?_, ?_⟩
  · rw [eval_biasedBits, List.mem_filter, List.mem_range, hlen,
      flagged_megabyte _ (by
        have := (avalanche_frame factory (megabyte.take 256)
          (biasPhase factory megabyte (timingLoop megabyte (initVars factory digest0)))).1
        rw [← this, ← eval_vars]; exact bz),
      eval_vars, (avalanche_frame _ _ _).1]
    simp [hb]
  · rw [eval_correlatedPairs, List.mem_filter, hlen,
      flagged_megabyte _ (by
        have := (avalanche_frame factory (megabyte.take 256)
          (biasPhase factory megabyte (timingLoop megabyte (initVars factory digest0)))).2
        rw [← this, ← eval_vars]; exact bc),
      eval_vars, (avalanche_frame _ _ _).2]
    have hmem : (i, j) ∈ pairReads := (pairReads_spec.2.2 i j).2 ⟨hij, hj⟩
    simp [hmem, cell]
  · rw [eval_avalancheBits, List.mem_filter, List.mem_range, htake,
      flagged_trials _ bd]
    simp [hb]

/-- Witness of C4: a buffer of 1,048,576 zero bytes, the counter value 513802, bit 31 and
the pair of bits `(0, 1)`. -/
theorem tolerance_band_witness :
    (flagged 513802 1048576 = true
      ↔ ((513802 : Nat) : ℚ) / (1048576 : Nat) < 49 / 100
        ∨ ((513802 : Nat) : ℚ) / (1048576 : Nat) > 51 / 100) ∧
    (((513802 : Nat) : ℚ) / (1048576 : Nat) ≠ 49 / 100
      ∧ ((513802 : Nat) : ℚ) / (1048576 : Nat) ≠ 51 / 100) ∧
    (∀ z2 n2 : Nat, z2 ≤ n2 → n2 < 2 ^ 24 →
      ((z2 : ℚ) / n2 = 49 / 100 ∨ (z2 : ℚ) / n2 = 51 / 100) → flagged z2 n2 = false) ∧
    (∀ z2 n2 : Nat, z2 ≤ n2 → n2 < 2 ^ 24 →
      ((z2 : ℚ) / n2 = 489999 / 1000000 ∨ (z2 : ℚ) / n2 = 510001 / 1000000) →
        flagged z2 n2 = true) ∧
    flagged 49 100 = false ∧ flagged 51 100 = false ∧
    flagged 489999 1000000 = true ∧ flagged 510001 1000000 = true ∧
    (31 ∈ (eval lastByteStub (List.replicate 1048576 0) 0).biasedBits
      ↔ ((eval lastByteStub (List.replicate 1048576 0) 0).vars.zeroes.getD 31 0 : ℚ) / 1048576
            < 49 / 100
        ∨ ((eval lastByteStub (List.replicate 1048576 0) 0).vars.zeroes.getD 31 0 : ℚ) / 1048576
            > 51 / 100) ∧
    ((0, 1) ∈ (eval lastByteStub (List.replicate 1048576 0) 0).correlatedPairs
      ↔ ((eval lastByteStub (List.replicate 1048576 0) 0).vars.correlations.getD
              (32 * 0 + 1) 0 : ℚ) / 1048576 < 49 / 100
        ∨ ((eval lastByteStub (List.replicate 1048576 0) 0).vars.correlations.getD
              (32 * 0 + 1) 0 : ℚ) / 1048576 > 51 / 100) ∧
    (31 ∈ (eval lastByteStub (List.replicate 1048576 0) 0).avalancheBits
      ↔ ((eval lastByteStub (List.replicate 1048576 0) 0).vars.differed.getD 31 0 : ℚ) / 2048
            < 49 / 100
        ∨ ((eval lastByteStub (List.replicate 1048576 0) 0).vars.differed.getD 31 0 : ℚ) / 2048
            > 51 / 100) :=
  tolerance_band lastByteStub (List.replicate 1048576 0) 0 513802 1048576 31 0 1
    (List.length_replicate _ _) (Or.inl rfl) (by decide) (by decide) (by decide) (by decide)

/-! ## The `crc32` roller -/

/-- One `Roll` on a well-shaped `crc32wrapper` succeeds, keeps the shape, and pushes the
byte into the window. -/
theorem crc32_roll (w : crc32wrapper) (b W : Nat) (hlen : w.buf.length = W)
    (hnext : w.next < W) :
    ∃ w2, w.Roll b = some w2 ∧ w2.buf.length = W ∧ w2.next < W ∧
      w2.chrono = w.chrono.drop 1 ++ [b] := by
  have hlt : w.next < w.buf.length := by omega
  refine ⟨{ buf := w.buf.set w.next b, next := (w.next + 1) % w.buf.length }, ?_, ?_, ?_, ?_⟩
  · unfold crc32wrapper.Roll
    rw [if_pos hlt]
  · simp [hlen]
  · show (w.next + 1) % w.buf.length < W
    rw [hlen]
    exact Nat.mod_lt _ (by omega)
  · unfold crc32wrapper.chrono
    show (w.buf.set w.next b).drop ((w.next + 1) % w.buf.length)
        ++ (w.buf.set w.next b).take ((w.next + 1) % w.buf.length)
      = (w.buf.drop w.next ++ w.buf.take w.next).drop 1 ++ [b]
    have hsplit : w.buf = w.buf.take w.next ++ w.buf.drop w.next :=
      (List.take_append_drop w.next w.buf).symm
    obtain ⟨x, B, hB⟩ : ∃ x B, w.buf.drop w.next = x :: B := by
      cases hd : w.buf.drop w.next with
      | nil =>
        have := congrArg List.length hd
        simp at this
        omega
      | cons x B => exact ⟨x, B, rfl⟩
    have hA : (w.buf.take w.next).length = w.next := by
      rw [List.length_take]; omega
    have hbuf : w.buf = w.buf.take w.next ++ x :: B := by rw [← hB]; exact hsplit
    have hBlen : B.length + w.next + 1 = w.buf.length := by
      have := congrArg List.length hbuf
      rw [List.length_append, hA, List.length_cons] at this
      omega
    generalize w.buf.take w.next = A at hA hbuf
    generalize w.next = n at hA hlt hBlen hB
    rw [hB]
    generalize w.buf = l at hbuf hBlen hlt
    subst hbuf
    subst hA
    have hset : (A ++ x :: B).set A.length b = A ++ b :: B := by
      simp
    rw [hset]
    by_cases hlast : B = []
    · subst hlast
      have hm : (A.length + 1) % (A ++ [x]).length = 0 := by
        simp
      rw [hm]
      simp
    · have hBpos : 0 < B.length := List.length_pos.2 hlast
      have hm : (A.length + 1) % (A ++ x :: B).length = A.length + 1 := by
        apply Nat.mod_eq_of_lt
        simp
        omega
      rw [hm]
      have e1 : (A ++ b :: B).drop (A.length + 1) = B := by
        rw [show A ++ b :: B = (A ++ [b]) ++ B by simp]
        exact List.drop_left' (by simp)
      have e2 : (A ++ b :: B).take (A.length + 1) = A ++ [b] := by
        rw [show A ++ b :: B = (A ++ [b]) ++ B by simp]
        exact List.take_left' (by simp)
      rw [e1, e2]
      simp

/-- `Digest` on a `crc32wrapper` whose `next` is within the buffer succeeds and returns the
checksum of the buffer in chronological order. -/
theorem crc32_digest (cs : List Nat → Nat) (w : crc32wrapper) (hnext : w.next ≤ w.buf.length) :
    w.Digest cs = some (cs w.chrono) := by
  unfold crc32wrapper.Digest crc32wrapper.chrono
  rw [if_pos hnext]
  simp only []
  congr 2
  have h1 : copy (List.replicate w.buf.length 0) (w.buf.drop w.next)
      = w.buf.drop w.next ++ List.replicate w.next 0 := by
    unfold copy
    rw [List.length_replicate, List.length_drop, List.drop_replicate,
      List.take_of_length_le (by rw [List.length_drop]; omega)]
    congr 2
    omega
  rw [h1]
  have hd : (w.buf.drop w.next).length = w.buf.length - w.next := List.length_drop _ _
  rw [List.take_left' hd, List.drop_left' hd]
  congr 1
  unfold copy
  rw [List.length_replicate, List.drop_replicate]
  have : w.next - w.buf.length = 0 := by omega
  rw [this]
  simp

theorem tracks_roll (W : Nat) (w : crc32wrapper) (h : List Nat) (b : Nat)
    (ht : Tracks W w h) : ∃ w2, w.Roll b = some w2 ∧ Tracks W w2 (h ++ [b]) := by
  obtain ⟨h1, h2, h3, h4⟩ := ht
  obtain ⟨w2, r1, r2, r3, r4⟩ := crc32_roll w b W h1 h2
  refine ⟨w2, r1, r2, r3, by simp; omega, ?_⟩
  rw [r4, h4, List.drop_drop, List.length_append, List.length_singleton]
  have e : h.length + 1 - W = h.length - W + 1 := by omega
  rw [e, List.drop_append_of_le_length (by omega)]

theorem tracks_digest (cs : List Nat → Nat) (W : Nat) (w : crc32wrapper) (h : List Nat)
    (ht : Tracks W w h) : w.Digest cs = some (cs (h.drop (h.length - W))) := by
  obtain ⟨h1, h2, _, h4⟩ := ht
  rw [crc32_digest cs w (by omega), h4]

theorem tracks_fresh (W : Nat) (hW : 1 ≤ W) :
    Tracks W { buf := List.replicate W 0, next := 0 } (List.replicate W 0) := by
  refine ⟨by simp, show 0 < W by omega, by simp, ?_⟩
  simp [crc32wrapper.chrono]

/-- Any sequence of calls on a well-shaped `crc32` roller leaves a well-shaped roller whose
window holds the bytes rolled. -/
theorem crc32_calls (cs : List Nat → Nat) (W : Nat) (ops : List Call) :
    ∀ (w : crc32wrapper) (h : List Nat), Tracks W w h →
      ∃ w2, (crc32At cs (some w)).calls ops = crc32At cs (some w2) ∧
        Tracks W w2 (h ++ rolledBytes ops) := by
  induction ops with
  | nil => intro w h ht; exact ⟨w, rfl, by simpa [rolledBytes] using ht⟩
  | cons op ops ih =>
    intro w h ht
    cases op with
    | Roll b =>
      obtain ⟨w1, hr, ht1⟩ := tracks_roll W w h b ht
      obtain ⟨w2, hc, ht2⟩ := ih w1 (h ++ [b]) ht1
      refine ⟨w2, ?_, by simpa [rolledBytes] using ht2⟩
      have hstep : (crc32At cs (some w)).call (Call.Roll b) = crc32At cs (some w1) := by
        simp [roller.call, roller.Roll, crc32At, hr]
      unfold roller.calls at hc ⊢
      rw [List.foldl_cons, hstep]
      exact hc
    | Digest =>
      obtain ⟨w2, hc, ht2⟩ := ih w h ht
      refine ⟨w2, ?_, by simpa [rolledBytes] using ht2⟩
      have hd := tracks_digest cs W w h ht
      have hstep : (crc32At cs (some w)).call Call.Digest = crc32At cs (some w) := by
        simp [roller.call, roller.Digest, crc32At, hd]
      unfold roller.calls at hc ⊢
      rw [List.foldl_cons, hstep]
      exact hc

theorem calls_map_roll (s : List Nat) (r : roller) :
    r.calls (s.map Call.Roll) = s.foldl (fun r x => r.Roll x) r := by
  unfold roller.calls
  rw [List.foldl_map]
  rfl

theorem rolledBytes_map_roll (s : List Nat) : rolledBytes (s.map Call.Roll) = s := by
  induction s with
  | nil => rfl
  | cons x xs ih => simp [rolledBytes, ih]

/-- The `crc32` roller of window `W ≥ 1` after any sequence of calls: never panicked, well
shaped, and its window is that of the bytes rolled. -/
theorem crc32_reachable (cs : List Nat → Nat) (W : Nat) (ops : List Call) (hW : 1 ≤ W) :
    ∃ w, (newCRC32 cs W ()).calls ops = crc32At cs (some w) ∧
      w.buf.length = W ∧ w.next < W ∧ w.chrono = window W (rolledBytes ops) ∧
      w.Digest cs = some (cs (window W (rolledBytes ops))) := by
  obtain ⟨w, hc, ht⟩ := crc32_calls cs W ops _ _ (tracks_fresh W hW)
  have hd := tracks_digest cs W w _ ht
  obtain ⟨h1, h2, _, h4⟩ := ht
  exact ⟨w, hc, h1, h2, h4, hd⟩

/-- The digest that a `crc32` roller in a state without panic returns. -/
theorem crc32At_digest (cs : List Nat → Nat) (w : crc32wrapper) (d : Nat)
    (hd : w.Digest cs = some d) :
    (crc32At cs (some w)).Digest = (d % 4294967296, crc32At cs (some w)) := by
  simp [roller.Digest, crc32At, hd]

/-! ## The properties of the `crc32` roller -/

/-- C11: `Digest` on a `crc32wrapper` with a buffer of length `W ≥ 1` and `0 ≤ next < W`
does not panic and leaves `buf` and `next` as they were, so that two consecutive calls of
`Digest` return the same value and a following `Roll` behaves as if `Digest` had not been
called. -/
theorem crc32_digest_frame (cs : List Nat → Nat) (w : crc32wrapper) (W b : Nat)
    (hlen : w.buf.length = W) (hnext : w.next < W) :
    w.Digest cs = some (cs w.chrono) ∧
    (crc32At cs (some w)).Digest.2 = crc32At cs (some w) ∧
    (crc32At cs (some w)).Digest.2.Digest.1 = (crc32At cs (some w)).Digest.1 ∧
    (crc32At cs (some w)).Digest.2.Roll b = (crc32At cs (some w)).Roll b := by
  have hd := crc32_digest cs w (by omega)
  have h := crc32At_digest cs w _ hd
  refine ⟨hd, by rw [h], ?_, by rw [h]⟩
  rw [h]
  show (crc32At cs (some w)).Digest.1 = cs w.chrono % 4294967296
  rw [h]

/-- Witness of C11: a buffer of three bytes whose next write is at position 1. -/
theorem crc32_digest_frame_witness :
    crc32wrapper.Digest List.sum { buf := [4, 5, 6], next := 1 }
      = some (List.sum (crc32wrapper.chrono { buf := [4, 5, 6], next := 1 })) ∧
    (crc32At List.sum (some { buf := [4, 5, 6], next := 1 })).Digest.2
      = crc32At List.sum (some { buf := [4, 5, 6], next := 1 }) ∧
    (crc32At List.sum (some { buf := [4, 5, 6], next := 1 })).Digest.2.Digest.1
      = (crc32At List.sum (some { buf := [4, 5, 6], next := 1 })).Digest.1 ∧
    (crc32At List.sum (some { buf := [4, 5, 6], next := 1 })).Digest.2.Roll 9
      = (crc32At List.sum (some { buf := [4, 5, 6], next := 1 })).Roll 9 :=
  crc32_digest_frame List.sum { buf := [4, 5, 6], next := 1 } 3 9 rfl (by decide)

/-- C12: for every window size `W ≥ 1` and every sequence `s` of rolled bytes, the roller
made by `newCRC32(W)` and fed `s` holds in `buf[next:] ++ buf[:next]` the last `W` bytes
of `W` zero bytes followed by `s`, oldest first, and `Digest` returns `ChecksumIEEE` of that
window (as a `uint32`); the same holds when calls of `Digest` are interleaved with the
calls of `Roll`. -/
theorem crc32_sliding_window (cs : List Nat → Nat) (W : Nat) (s : List Nat)
    (ops : List Call) (hW : 1 ≤ W) :
    (∃ w, s.foldl (fun r x => r.Roll x) (newCRC32 cs W ()) = crc32At cs (some w) ∧
      w.buf.length = W ∧ w.next < W ∧
      w.buf.drop w.next ++ w.buf.take w.next = window W s ∧
      w.Digest cs = some (cs (window W s))) ∧
    digestOf (newCRC32 cs W) s = cs (window W s) % 4294967296 ∧
    ((newCRC32 cs W ()).calls ops).Digest.1
      = cs (window W (rolledBytes ops)) % 4294967296 := by
  obtain ⟨w, hc, h1, h2, h3, h4⟩ := crc32_reachable cs W (s.map Call.Roll) hW
  rw [calls_map_roll] at hc
  rw [rolledBytes_map_roll] at h3 h4
  obtain ⟨w2, hc2, _, _, _, k4⟩ := crc32_reachable cs W ops hW
  refine ⟨⟨w, hc, h1, h2, h3, h4⟩, ?_, ?_⟩
  · unfold digestOf
    rw [hc, crc32At_digest cs w _ h4]
  · rw [hc2, crc32At_digest cs w2 _ k4]

/-- Witness of C12: window 2, three bytes rolled. -/
theorem crc32_sliding_window_witness :
    (∃ w, [7, 8, 9].foldl (fun r x => r.Roll x) (newCRC32 List.sum 2 ())
        = crc32At List.sum (some w) ∧
      w.buf.length = 2 ∧ w.next < 2 ∧
      w.buf.drop w.next ++ w.buf.take w.next = window 2 [7, 8, 9] ∧
      w.Digest List.sum = some (List.sum (window 2 [7, 8, 9]))) ∧
    digestOf (newCRC32 List.sum 2) [7, 8, 9] = List.sum (window 2 [7, 8, 9]) % 4294967296 ∧
    ((newCRC32 List.sum 2 ()).calls [Call.Roll 7, Call.Digest, Call.Roll 8]).Digest.1
      = List.sum (window 2 (rolledBytes [Call.Roll 7, Call.Digest, Call.Roll 8]))
          % 4294967296 :=
  crc32_sliding_window List.sum 2 [7, 8, 9] [Call.Roll 7, Call.Digest, Call.Roll 8]
    (by decide)

/-- C14: for every window size `W ≥ 1`, every state reached from `newCRC32(W)()` by any
sequence of `Roll` and `Digest` calls is free of panics and has `len(buf) = W` and
`0 ≤ next < W`; hence the write `buf[next]` of `Roll` is in bounds, the modulus of `Roll`
is not zero, the slicings `buf[next:]` and `buf[len(buf)-next:]` of `Digest` are in bounds,
and the next `Roll` and `Digest` succeed. -/
theorem crc32_index_safety (cs : List Nat → Nat) (W : Nat) (ops : List Call) (b : Nat)
    (hW : 1 ≤ W) :
    ∃ w, (newCRC32 cs W ()).calls ops = crc32At cs (some w) ∧
      w.buf.length = W ∧ w.next < W ∧
      w.next < w.buf.length ∧ w.buf.length ≠ 0 ∧
      w.next ≤ w.buf.length ∧ w.buf.length - w.next ≤ w.buf.length ∧
      (w.Roll b).isSome = true ∧ (w.Digest cs).isSome = true := by
  obtain ⟨w, hc, h1, h2, _, h4⟩ := crc32_reachable cs W ops hW
  obtain ⟨w2, hr, _⟩ := crc32_roll w b W h1 h2
  refine ⟨w, hc, h1, h2, by omega, by omega, by omega, by omega, ?_, ?_⟩
  · rw [hr]; rfl
  · rw [h4]; rfl

/-- Witness of C14: window 2 and the calls `Roll 7`, `Digest`, `Roll 8`. -/
theorem crc32_index_safety_witness :
    ∃ w, (newCRC32 List.sum 2 ()).calls [Call.Roll 7, Call.Digest, Call.Roll 8]
        = crc32At List.sum (some w) ∧
      w.buf.length = 2 ∧ w.next < 2 ∧
      w.next < w.buf.length ∧ w.buf.length ≠ 0 ∧
      w.next ≤ w.buf.length ∧ w.buf.length - w.next ≤ w.buf.length ∧
      (w.Roll 9).isSome = true ∧ (w.Digest List.sum).isSome = true :=
  crc32_index_safety List.sum 2 [Call.Roll 7, Call.Digest, Call.Roll 8] 9 (by decide)

/-! ## The avalanche counters and the Hamming distance -/

/-- The number of one bits of a 32-bit value is the number of its one bits among the bit
positions below 32. -/
theorem popcount_u32 (x : Nat) (hx : x < 2 ^ 32) :
    popcount x = (List.range 32).countP (fun i => x.testBit i) := by
  unfold popcount
  rw [← List.countP_eq_length_filter]
  have hs : x.size ≤ 32 := Nat.size_le.2 hx
  obtain ⟨m, hm⟩ : ∃ m, 32 = x.size + m := ⟨32 - x.size, by omega⟩
  rw [hm, List.range_add, List.countP_append]
  have hz : ((List.range m).map (fun i => x.size + i)).countP (fun i => x.testBit i) = 0 := by
    rw [List.countP_eq_zero]
    intro i hi
    rw [List.mem_map] at hi
    obtain ⟨a, _, rfl⟩ := hi
    have h1 : x < 2 ^ (x.size + a) :=
      lt_of_lt_of_le (Nat.lt_size_self x) (Nat.pow_le_pow_right (by decide) (by omega))
    simp [Nat.testBit_lt_two_pow h1]
  rw [hz, Nat.add_zero]

theorem sum_map_add_ite {α : Type} (g : α → Nat) (q : α → Bool) (is : List α) :
    (is.map (fun i => g i + if q i = true then 1 else 0)).sum
      = (is.map g).sum + is.countP q := by
  induction is with
  | nil => rfl
  | cons a is ih =>
    simp only [List.map_cons, List.sum_cons, List.countP_cons, ih]
    omega

/-- Counting the pairs `(i, p)` with `f i p` row by row or column by column. -/
theorem sum_countP_comm {α β : Type} (f : α → β → Bool) (is : List α) (ps : List β) :
    (is.map (fun i => ps.countP (fun p => f i p))).sum
      = (ps.map (fun p => is.countP (fun i => f i p))).sum := by
  induction ps with
  | nil => simp
  | cons p ps ih =>
    simp only [List.countP_cons, List.map_cons, List.sum_cons]
    rw [sum_map_add_ite (fun i => ps.countP (fun p => f i p)) (fun i => f i p) is, ih]
    omega

theorem digestOf_lt (factory : Unit → roller) (inp : List Nat) :
    digestOf factory inp < 2 ^ 32 := by
  unfold digestOf roller.Digest
  exact Nat.mod_lt _ (by decide)

/-- The sum of the avalanche counters is the total Hamming distance of the trials. -/
theorem avalanche_sum (factory : Unit → roller) (inp : List Nat) (v : Vars) :
    ((List.range 32).map (fun i => (avalanchePhase factory inp v).differed.getD i 0)).sum
      = ((List.product (List.range inp.length) (List.range 8)).map (fun p =>
          popcount (digestOf factory inp ^^^ digestOf factory (perturbed inp p.1 p.2)))).sum := by
  have h1 : (List.range 32).map (fun i => (avalanchePhase factory inp v).differed.getD i 0)
      = (List.range 32).map (fun i =>
          (List.product (List.range inp.length) (List.range 8)).countP (fun p =>
            (digestOf factory inp).testBit i
              != (digestOf factory (perturbed inp p.1 p.2)).testBit i)) := by
    apply List.map_congr_left
    intro i hi
    exact (avalanche_spec factory inp v).2.2.2.2 i (List.mem_range.1 hi)
  rw [h1, sum_countP_comm (fun i (p : Nat × Nat) =>
    (digestOf factory inp).testBit i != (digestOf factory (perturbed inp p.1 p.2)).testBit i)]
  congr 1
  apply List.map_congr_left
  intro p _
  rw [popcount_u32 _ (Nat.xor_lt_two_pow (digestOf_lt factory inp) (digestOf_lt factory _))]
  apply List.countP_congr
  intro i _
  rw [Nat.testBit_xor]

/-- C15: after the avalanche phase on a reference input of length `L`, the sum over `i` in
`[0,32)` of `differed[i]` equals the sum over the `L*8` trials `(j, k)` of
`popcount(R XOR D(j,k))`, `R` the reference digest and `D(j,k)` the digest of the trial's
perturbed input; in `eval` the reference input is the first 256 bytes of the buffer. -/
theorem avalanche_hamming_sum (factory : Unit → roller) (inp megabyte : List Nat)
    (v : Vars) (digest0 : Nat) :
    ((List.range 32).map (fun i => (avalanchePhase factory inp v).differed.getD i 0)).sum
      = ((List.product (List.range inp.length) (List.range 8)).map (fun p =>
          popcount (digestOf factory inp ^^^ digestOf factory (perturbed inp p.1 p.2)))).sum ∧
    (avalanchePhase factory inp v).differed.sum
      = ((List.range 32).map (fun i => (avalanchePhase factory inp v).differed.getD i 0)).sum ∧
    (List.product (List.range inp.length) (List.range 8)).length = inp.length * 8 ∧
    ((List.range 32).map (fun i => (eval factory megabyte digest0).vars.differed.getD i 0)).sum
      = ((List.product (List.range (megabyte.take 256).length) (List.range 8)).map (fun p =>
          popcount (digestOf factory (megabyte.take 256)
            ^^^ digestOf factory (perturbed (megabyte.take 256) p.1 p.2)))).sum := by
  refine ⟨avalanche_sum factory inp v, ?_, length_product_range _ _, ?_⟩
  · have hl := (avalanche_spec factory inp v).2.1
    have h := map_getD_range (avalanchePhase factory inp v).differed
    rw [hl] at h
    rw [h]
  · rw [eval_vars]
    exact avalanche_sum factory _ _

/-! ## The avalanche test on the windowed `crc32` roller -/

/-- The window of an input at least as long as the window is its tail. -/
theorem window_of_long (W : Nat) (l : List Nat) (hl : W ≤ l.length) :
    window W l = l.drop (l.length - W) := by
  unfold window
  have h1 : (List.replicate W 0 ++ l).length - W = (List.replicate W 0).length + (l.length - W) := by
    simp
    omega
  rw [h1, List.drop_append]

theorem crc32_digestOf (cs : List Nat → Nat) (W : Nat) (s : List Nat) (hW : 1 ≤ W) :
    digestOf (newCRC32 cs W) s = cs (window W s) % 4294967296 := by
  obtain ⟨w, hc, _, _, _, h4⟩ := crc32_reachable cs W (s.map Call.Roll) hW
  rw [calls_map_roll] at hc
  rw [rolledBytes_map_roll] at h4
  unfold digestOf
  rw [hc, crc32At_digest cs w _ h4]

/-- A perturbation before the last `W` bytes of the input does not change the digest of the
`crc32` roller of window `W`. -/
theorem crc32_insensitive (cs : List Nat → Nat) (W : Nat) (inp : List Nat) (j k : Nat)
    (hW : 1 ≤ W) (hl : W ≤ inp.length) (hj : j < inp.length - W) :
    digestOf (newCRC32 cs W) (perturbed inp j k) = digestOf (newCRC32 cs W) inp := by
  have hlen : (perturbed inp j k).length = inp.length := by simp [perturbed]
  rw [crc32_digestOf cs W _ hW, crc32_digestOf cs W _ hW,
    window_of_long W _ (by rw [hlen]; exact hl), window_of_long W _ hl, hlen]
  unfold perturbed
  rw [List.drop_set_of_lt _ _ hj]

theorem countP_product_fst (q : Nat → Bool) (ks : List Nat) (js : List Nat) :
    (List.product js ks).countP (fun p => q p.1) = js.countP q * ks.length := by
  induction js with
  | nil => simp [List.product]
  | cons j js ih =>
    have hp : List.product (j :: js) ks = ks.map (fun k => (j, k)) ++ List.product js ks := by
      simp [List.product, List.flatMap_cons]
    rw [hp, List.countP_append, ih, List.countP_cons, List.countP_map]
    by_cases hq : q j = true
    · have : (ks.countP ((fun p : Nat × Nat => q p.1) ∘ fun k => (j, k))) = ks.length := by
        rw [List.countP_eq_length]
        intro a _
        simpa using hq
      rw [this]
      simp [hq, Nat.add_mul]
      omega
    · have : (ks.countP ((fun p : Nat × Nat => q p.1) ∘ fun k => (j, k))) = 0 := by
        rw [List.countP_eq_zero]
        intro a _
        simpa using hq
      rw [this]
      simp [hq]

theorem countP_ge_range (a b : Nat) :
    (List.range (a + b)).countP (fun j => decide (a ≤ j)) = b := by
  rw [List.range_add, List.countP_append]
  have h1 : (List.range a).countP (fun j => decide (a ≤ j)) = 0 := by
    rw [List.countP_eq_zero]
    intro j hj
    have := List.mem_range.1 hj
    simp
    omega
  have h2 : ((List.range b).map (fun x => a + x)).countP (fun j => decide (a ≤ j))
      = ((List.range b).map (fun x => a + x)).length := by
    rw [List.countP_eq_length]
    intro j hj
    rw [List.mem_map] at hj
    obtain ⟨x, _, rfl⟩ := hj
    simp
  rw [h1, h2]
  simp

/-- On a reference input of 256 bytes the avalanche counters of the `crc32` roller of
window 64 are at most `8 * 64`. -/
theorem crc32_differed_le (cs : List Nat → Nat) (inp : List Nat) (v : Vars) (i : Nat)
    (hinp : inp.length = 256) (hi : i < 32) :
    (avalanchePhase (newCRC32 cs 64) inp v).differed.getD i 0 ≤ 512 := by
  rw [(avalanche_spec (newCRC32 cs 64) inp v).2.2.2.2 i hi, hinp]
  have hmono : (List.product (List.range 256) (List.range 8)).countP (fun p =>
        (digestOf (newCRC32 cs 64) inp).testBit i
          != (digestOf (newCRC32 cs 64) (perturbed inp p.1 p.2)).testBit i)
      ≤ (List.product (List.range 256) (List.range 8)).countP
          (fun p => decide (192 ≤ p.1)) := by
    apply List.countP_mono_left
    intro p _ hp
    by_contra hc
    have hj : p.1 < inp.length - 64 := by
      rw [hinp]
      simp at hc
      omega
    rw [crc32_insensitive cs 64 inp p.1 p.2 (by decide) (by omega) hj] at hp
    simp at hp
  have hcount := countP_product_fst (fun j => decide (192 ≤ j)) (List.range 8) (List.range 256)
  have h64 := countP_ge_range 192 64
  rw [show 192 + 64 = 256 from rfl] at h64
  rw [h64, List.length_range] at hcount
  rw [hcount] at hmono
  exact hmono

/-- C13: for the `crc32` roller of window 64, as registered in `hashes`, and every 256-byte
reference input, a perturbation at a byte position `j < 192` yields `D(j,k) = R`, so that
`differed[i] ≤ 8*64 = 512` for every `i` in `[0,32)`, the fraction `differed[i]/2048` is at
most `0.25 < 0.49`, and `eval` reports all 32 output bits as departing from 50%. -/
theorem crc32_avalanche_flags_all (lib : Library) (inp megabyte : List Nat) (v : Vars)
    (digest0 i j k : Nat) (hinp : inp.length = 256) (hlen : 256 ≤ megabyte.length)
    (hi : i < 32) (hj : j < 192) (hk : k < 8) :
    (hashes lib).lookup "crc32" = some (newCRC32 lib.ChecksumIEEE 64) ∧
    digestOf (newCRC32 lib.ChecksumIEEE 64) (perturbed inp j k)
      = digestOf (newCRC32 lib.ChecksumIEEE 64) inp ∧
    trialDigest (newCRC32 lib.ChecksumIEEE 64) inp j k
      = (referenceRoller (newCRC32 lib.ChecksumIEEE 64) inp).Digest.1 ∧
    (avalanchePhase (newCRC32 lib.ChecksumIEEE 64) inp v).differed.getD i 0 ≤ 512 ∧
    (eval (newCRC32 lib.ChecksumIEEE 64) megabyte digest0).vars.differed.getD i 0 ≤ 512 ∧
    ((eval (newCRC32 lib.ChecksumIEEE 64) megabyte digest0).vars.differed.getD i 0 : ℚ) / 2048
      ≤ 1 / 4 ∧
    i ∈ (eval (newCRC32 lib.ChecksumIEEE 64) megabyte digest0).avalancheBits ∧
    (eval (newCRC32 lib.ChecksumIEEE 64) megabyte digest0).avalancheBits = List.range 32 := by
  have htake : (megabyte.take 256).length = 256 := by
    rw [List.length_take]; omega
  have hins := crc32_insensitive lib.ChecksumIEEE 64 inp j k (by decide) (by omega)
    (by omega)
  have hbound : ∀ c, c < 32 →
      (eval (newCRC32 lib.ChecksumIEEE 64) megabyte digest0).vars.differed.getD c 0 ≤ 512 := by
    intro c hc
    rw [eval_vars]
    exact crc32_differed_le lib.ChecksumIEEE _ _ c htake hc
  have hflag : ∀ c, c < 32 →
      flagged ((eval (newCRC32 lib.ChecksumIEEE 64) megabyte digest0).vars.differed.getD c 0)
        (8 * (megabyte.take 256).length) = true := by
    intro c hc
    have hb := hbound c hc
    rw [htake, flagged_trials _ (by omega)]
    left
    rw [div_lt_iff₀ (by norm_num)]
    have : ((eval (newCRC32 lib.ChecksumIEEE 64) megabyte digest0).vars.differed.getD c 0 : ℚ)
        ≤ 512 := by exact_mod_cast hb
    linarith
  have hall : (eval (newCRC32 lib.ChecksumIEEE 64) megabyte digest0).avalancheBits
      = List.range 32 := by
    rw [eval_avalancheBits, List.filter_eq_self]
    intro c hc
    exact hflag c (List.mem_range.1 hc)
  refine ⟨by simp [hashes, List.lookup], hins, ?_, crc32_differed_le lib.ChecksumIEEE inp v i hinp hi,
    hbound i hi, ?_, ?_, hall⟩
  · rw [trialDigest_eq _ inp j k hk, referenceDigest_eq, hins]
  · rw [div_le_iff₀ (by norm_num)]
    have : ((eval (newCRC32 lib.ChecksumIEEE 64) megabyte digest0).vars.differed.getD i 0 : ℚ)
        ≤ 512 := by exact_mod_cast hbound i hi
    linarith
  · rw [hall]
    exact List.mem_range.2 hi

/-- Witness of C13: 256 zero bytes, output bit 5, the perturbation of bit 2 of byte 100. -/
theorem crc32_avalanche_flags_all_witness :
    (hashes stubLibrary).lookup "crc32" = some (newCRC32 stubLibrary.ChecksumIEEE 64) ∧
    digestOf (newCRC32 stubLibrary.ChecksumIEEE 64) (perturbed (List.replicate 256 0) 100 2)
      = digestOf (newCRC32 stubLibrary.ChecksumIEEE 64) (List.replicate 256 0) ∧
    trialDigest (newCRC32 stubLibrary.ChecksumIEEE 64) (List.replicate 256 0) 100 2
      = (referenceRoller (newCRC32 stubLibrary.ChecksumIEEE 64)
          (List.replicate 256 0)).Digest.1 ∧
    (avalanchePhase (newCRC32 stubLibrary.ChecksumIEEE 64) (List.replicate 256 0)
        (initVars lastByteStub 0)).differed.getD 5 0 ≤ 512 ∧
    (eval (newCRC32 stubLibrary.ChecksumIEEE 64)
        (List.replicate 256 0) 0).vars.differed.getD 5 0 ≤ 512 ∧
    ((eval (newCRC32 stubLibrary.ChecksumIEEE 64)
        (List.replicate 256 0) 0).vars.differed.getD 5 0 : ℚ) / 2048 ≤ 1 / 4 ∧
    5 ∈ (eval (newCRC32 stubLibrary.ChecksumIEEE 64) (List.replicate 256 0) 0).avalancheBits ∧
    (eval (newCRC32 stubLibrary.ChecksumIEEE 64) (List.replicate 256 0) 0).avalancheBits
      = List.range 32 :=
  crc32_avalanche_flags_all stubLibrary (List.replicate 256 0) (List.replicate 256 0)
    (initVars lastByteStub 0) 0 5 100 2 (List.length_replicate _ _)
    (le_of_eq (List.length_replicate _ _).symm) (by decide) (by decide) (by decide)

end Eval
